import Mathlib

/-!
Shallow embedding of `scripts/build_csapp_pdf.py`: a utility that parses a
markdown manifest, concatenates the referenced markdown documents into one
combined markdown file, and renders the normalized text into a minimal
hand-built PDF 1.4 byte stream.

Python strings are modelled as Lean `String`/`List Char`; byte lengths and
byte offsets in the PDF output are measured with `String.utf8ByteSize`,
matching Python's `str.encode("utf-8")` lengths.  The file system is
modelled as a partial map from project-root-relative paths to file
contents.
-/

/-! ## Python string primitives -/

/-- Characters treated as whitespace by Python's `str.strip`, `str.isspace`
and the `re` module's `\s` class for text patterns (`Py_UNICODE_ISSPACE`). -/
def pyIsSpace (c : Char) : Bool :=
  c.toNat ∈ [9, 10, 11, 12, 13, 28, 29, 30, 31, 32, 0x85, 0xa0, 0x1680,
    0x2000, 0x2001, 0x2002, 0x2003, 0x2004, 0x2005, 0x2006, 0x2007, 0x2008,
    0x2009, 0x200a, 0x2028, 0x2029, 0x202f, 0x205f, 0x3000]

/-- The whitespace characters of `textwrap._whitespace = "\t\n\x0b\x0c\r "`,
used by `textwrap`'s word-separation pattern. -/
def isWordsepWs (c : Char) : Bool :=
  c = '\t' ∨ c = '\n' ∨ c = '\x0b' ∨ c = '\x0c' ∨ c = '\r' ∨ c = ' '

/-- Line-break characters recognized by Python's `str.splitlines`
(`\r\n` is additionally treated as a single break). -/
def isPyLineBreak (c : Char) : Bool :=
  c.toNat ∈ [10, 13, 11, 12, 28, 29, 30, 0x85, 0x2028, 0x2029]

/-- Python `str.rstrip()` (no argument): drop trailing whitespace. -/
def pyRstrip (s : String) : String :=
  String.mk ((s.data.reverse.dropWhile pyIsSpace).reverse)

/-- Python `str.lstrip()` (no argument): drop leading whitespace. -/
def pyLstrip (s : String) : String :=
  String.mk (s.data.dropWhile pyIsSpace)

/-- Python `str.strip()` (no argument): drop leading and trailing whitespace. -/
def pyStrip (s : String) : String :=
  String.mk (((s.data.dropWhile pyIsSpace).reverse.dropWhile pyIsSpace).reverse)

/-- Worker for `pySplitlines`; the fuel is an upper bound on the number of
recursion steps (each step consumes at least one character). -/
def pySplitlinesGo : Nat → List Char → List (List Char)
  | _, [] => []
  | 0, s => [s]
  | fuel + 1, s =>
    let pre := s.takeWhile (fun c => !isPyLineBreak c)
    let rest := s.dropWhile (fun c => !isPyLineBreak c)
    match rest with
    | [] => [pre]
    | '\r' :: '\n' :: r2 => pre :: pySplitlinesGo fuel r2
    | _ :: r2 => pre :: pySplitlinesGo fuel r2

/-- Python `str.splitlines()`: split on line-break characters, treating
`\r\n` as one break; a trailing break produces no extra empty line and the
empty string yields the empty list. -/
def pySplitlines (s : String) : List String :=
  (pySplitlinesGo s.data.length s.data).map String.mk

/-- Python `str.replace(old, new)` for a single-character `old`: replace
every occurrence of `needle`, scanning left to right. -/
def pyReplace1 (needle : Char) (rep : String) (s : String) : String :=
  String.mk (s.data.flatMap (fun c => if c = needle then rep.data else [c]))

/-- Python `"\n".join(lines)`. -/
def joinNl (lines : List String) : String :=
  String.intercalate "\n" lines

/-- Python's format spec `f"{n:010d}"` for a non-negative integer: the
decimal digits left-padded with `0` to a minimum width of 10. -/
def zfill10 (n : Nat) : String :=
  let s := toString n
  String.mk (List.replicate (10 - s.length) '0') ++ s

/-- Abbreviation for the UTF-8 byte length of a string, which is what
Python's `len` returns on `str.encode("utf-8")` results. -/
def bsize (s : String) : Nat := s.utf8ByteSize

theorem bsize_append (a b : String) : bsize (a ++ b) = bsize a + bsize b := by
  cases a with
  | mk da =>
    cases b with
    | mk db =>
      show String.utf8Len (da ++ db) = String.utf8Len da + String.utf8Len db
      exact String.utf8Len_append da db

/-! ## Manifest parser (`extract_summary_entries`) -/

/-- Attempt to match the regex `\[([^\]]+)\]\(([^)]+\.md)\)` at the head of
the character list, returning the two capture groups (title, path).  The
path group must be a non-empty run of characters other than `)` ending in
`.md` (so at least one character precedes the `.md`). -/
def tryMdLinkAt (s : List Char) : Option (List Char × List Char) :=
  match s with
  | '[' :: rest =>
    let t := rest.takeWhile (fun c => !(c = ']'))
    let r1 := rest.dropWhile (fun c => !(c = ']'))
    if t.isEmpty then none
    else
      match r1 with
      | ']' :: '(' :: r2 =>
        let u := r2.takeWhile (fun c => !(c = ')'))
        let r3 := r2.dropWhile (fun c => !(c = ')'))
        match r3 with
        | ')' :: _ =>
          if 4 ≤ u.length ∧ u.drop (u.length - 3) = ['.', 'm', 'd'] then some (t, u)
          else none
        | _ => none
      | _ => none
  | _ => none

/-- `re.search(r"\[([^\]]+)\]\(([^)]+\.md)\)", line)`: leftmost match of the
markdown-link pattern in the line, returning (title, path) capture groups. -/
def searchMdLink : List Char → Option (List Char × List Char)
  | [] => none
  | c :: rest =>
    match tryMdLinkAt (c :: rest) with
    | some r => some r
    | none => searchMdLink rest

/-- Loop body of `extract_summary_entries`: lines without a match are
skipped (`continue`); a matching line contributes `(title.strip(), path)`.
Paths are kept project-root-relative (the Python code prefixes `ROOT`,
and every later consumer resolves against the same `ROOT`). -/
def extractGo : List String → List (String × String)
  | [] => []
  | l :: rest =>
    match searchMdLink l.data with
    | none => extractGo rest
    | some (t, p) => (pyStrip (String.mk t), String.mk p) :: extractGo rest

/-- `extract_summary_entries(summary_text)`. -/
def extract_summary_entries (summaryText : String) : List (String × String) :=
  extractGo (pySplitlines summaryText)

example : extract_summary_entries "prose line\n- [Intro](a.md)\nx [A](u) y\n* [B c](dir/b.md) tail\n" =
    [("Intro", "a.md"), ("B c", "dir/b.md")] := by decide

example : pySplitlines "a\r\nb\n\nc" = ["a", "b", "", "c"] := by decide
example : pyStrip "  x y\t " = "x y" := by decide
example : pyRstrip "a \n" = "a" := by decide

/-! ## Markdown normalizer (`normalize_markdown`) -/

/-- `s.startswith(p)` via character lists (Python `str.startswith`). -/
def strStarts (s p : String) : Bool :=
  s.data.take p.data.length = p.data

/-- One global-substitution pass of `re.sub`: `step` attempts a match at the
head of the list, returning the replacement text and the remainder after
the match; on success scanning resumes after the match (non-overlapping,
left to right), otherwise the head character is kept and scanning moves on
by one.  The fuel is an upper bound on the number of steps (every step
consumes at least one character). -/
def scanSub (step : List Char → Option (List Char × List Char)) :
    Nat → List Char → List Char
  | _, [] => []
  | 0, s => s
  | fuel + 1, c :: rest =>
    match step (c :: rest) with
    | some (out, r2) => out ++ scanSub step fuel r2
    | none => c :: scanSub step fuel rest

/-- `re.sub(pattern, repl, s)` driven by a head-matcher `step`. -/
def pySub (step : List Char → Option (List Char × List Char)) (s : String) : String :=
  String.mk (scanSub step s.data.length s.data)

/-- Head-match of `\[([^\]]+)\]\(([^)]+)\)` with replacement `\1 (\2)`
(hyperlink syntax `[text](url)` becomes `text (url)`). -/
def stepLink : List Char → Option (List Char × List Char)
  | '[' :: rest =>
    let t := rest.takeWhile (fun c => !(c = ']'))
    let r1 := rest.dropWhile (fun c => !(c = ']'))
    if t.isEmpty then none
    else
      match r1 with
      | ']' :: '(' :: r2 =>
        let u := r2.takeWhile (fun c => !(c = ')'))
        let r3 := r2.dropWhile (fun c => !(c = ')'))
        if u.isEmpty then none
        else
          match r3 with
          | ')' :: r4 => some (t ++ (' ' :: '(' :: u) ++ [')'], r4)
          | _ => none
      | _ => none
  | _ => none

/-- Head-match of `d([^d]+)d` for a one-character delimiter `d`, with
replacement `\1` (used for inline code, `*..*` and `_.._`). -/
def stepDelim1 (d : Char) : List Char → Option (List Char × List Char)
  | c :: rest =>
    if c = d then
      let t := rest.takeWhile (fun x => !(x = d))
      let r1 := rest.dropWhile (fun x => !(x = d))
      if t.isEmpty then none
      else
        match r1 with
        | e :: r2 => if e = d then some (t, r2) else none
        | [] => none
    else none
  | [] => none

/-- Head-match of `dd([^d]+)dd` for a doubled one-character delimiter `d`,
with replacement `\1` (used for `**..**` and `__..__`). -/
def stepDelim2 (d : Char) : List Char → Option (List Char × List Char)
  | c1 :: c2 :: rest =>
    if c1 = d ∧ c2 = d then
      let t := rest.takeWhile (fun x => !(x = d))
      let r1 := rest.dropWhile (fun x => !(x = d))
      if t.isEmpty then none
      else
        match r1 with
        | e1 :: e2 :: r2 => if e1 = d ∧ e2 = d then some (t, r2) else none
        | _ => none
    else none
  | _ => none

/-- Head-match of `<[^>]+>` with empty replacement (angle-bracket tag
content is removed). -/
def stepTag : List Char → Option (List Char × List Char)
  | '<' :: rest =>
    let t := rest.takeWhile (fun c => !(c = '>'))
    let r1 := rest.dropWhile (fun c => !(c = '>'))
    if t.isEmpty then none
    else
      match r1 with
      | '>' :: r2 => some ([], r2)
      | _ => none
  | _ => none

/-- The chain of `re.sub` passes applied to a non-code, non-image line, in
source order: link, inline code, bold, italic, bold-underscore,
italic-underscore, then angle-bracket tags. -/
def stripPipeline (line : String) : String :=
  pySub stepTag
    (pySub (stepDelim1 '_')
      (pySub (stepDelim2 '_')
        (pySub (stepDelim1 '*')
          (pySub (stepDelim2 '*')
            (pySub (stepDelim1 '\x60')
              (pySub stepLink line))))))

/-- Split a character list at the first occurrence of the two-character
sequence `](`, returning the part before it and the part after it. -/
def splitAtBrackParen : List Char → Option (List Char × List Char)
  | [] => none
  | [_] => none
  | x :: y :: rest =>
    if x = ']' ∧ y = '(' then some ([], rest)
    else
      match splitAtBrackParen (y :: rest) with
      | none => none
      | some (p, q) => some (x :: p, q)

/-- `re.match(r"!\[(.*?)\]\((.*?)\)", line)`: anchored match of the image
pattern, returning the alt-text capture group.  The lazy groups make the
alt text everything before the first `](` and require some `)` after it. -/
def imageMatch : List Char → Option (List Char)
  | '!' :: '[' :: rest =>
    match splitAtBrackParen rest with
    | some (p, q) => if q.contains ')' then some p else none
    | none => none
  | _ => none

/-- `re.match(r"^(#+)\s*(.*)", line)` restricted to its success case: if the
line starts with `#`, return capture group 2 (everything after the leading
run of `#` and the following whitespace run). -/
def headingMatch (s : String) : Option String :=
  match s.data with
  | '#' :: _ =>
    some (String.mk ((s.data.dropWhile (fun c => c = '#')).dropWhile pyIsSpace))
  | _ => none

/-- One iteration of the `normalize_markdown` loop: takes the
inside-fenced-code-block flag and the raw line, and returns the updated
flag together with the lines appended for this raw line. -/
def normStep (inCode : Bool) (rawLine : String) : Bool × List String :=
  let line := pyRstrip rawLine
  if strStarts (pyStrip line) "```" then (!inCode, [])
  else if strStarts (pyStrip line) "\x7b%" then (inCode, [])
  else if inCode then (inCode, ["    " ++ line])
  else
    match imageMatch line.data with
    | some alt =>
      let altS := pyStrip (String.mk alt)
      let altText := if altS.data.isEmpty then "Image" else altS
      (inCode, ["[Image: " ++ altText ++ "]"])
    | none =>
      let line2 := stripPipeline line
      match headingMatch line2 with
      | some g2 =>
        let text := pyStrip g2
        (inCode, if text.data.isEmpty then [] else [text, ""])
      | none => (inCode, [line2])

/-- Fold of `normStep` over the document's lines, threading the fenced-code
flag and concatenating the emitted lines. -/
def normGo : Bool → List String → List String
  | _, [] => []
  | inCode, l :: rest =>
    let s := normStep inCode l
    s.2 ++ normGo s.1 rest

/-- `normalize_markdown(markdown)`. -/
def normalize_markdown (markdown : String) : List String :=
  normGo false (pySplitlines markdown)

example : normalize_markdown "# Title\ntext **bold** and `code`\n```\nraw  line \n```\nafter" =
    ["Title", "", "text bold and code", "    raw  line", "after"] := by decide
example : normalize_markdown "![  ](u) x" = ["[Image: Image]"] := by decide
example : normalize_markdown "![alt text](u)" = ["[Image: alt text]"] := by decide
example : normalize_markdown "#\n## \nok" = ["ok"] := by decide
example : normalize_markdown "a [t](u) b" = ["a t (u) b"] := by decide
example : normalize_markdown "\x7b% raw %\x7d\nkeep" = ["keep"] := by decide

/-! ## Line wrapper (`wrap_lines`, modelling `textwrap.wrap`)

`wrap_lines` calls `textwrap.wrap(content, width=width, initial_indent=indent,
subsequent_indent=indent, replace_whitespace=False)`; the remaining options
keep their defaults (`expand_tabs=True`, `tabsize=8`, `drop_whitespace=True`,
`break_long_words=True`, `break_on_hyphens=True`, `max_lines=None`).
The word-separation pass is modelled as splitting into maximal runs of
whitespace / non-whitespace characters; the hyphen and em-dash sub-splitting
branches of `textwrap.TextWrapper.wordsep_re` are not modelled, so theorems
about wrapping assume hyphen-free input. -/

/-- Python `str.expandtabs(8)` (applied by `textwrap._munge_whitespace`
because `expand_tabs` defaults to true): each tab becomes spaces up to the
next multiple of 8, with the column reset by `\n` and `\r`. -/
def expandTabsGo : Nat → List Char → List Char
  | _, [] => []
  | col, c :: rest =>
    if c = '\t' then
      let n := 8 - col % 8
      List.replicate n ' ' ++ expandTabsGo (col + n) rest
    else if c = '\n' ∨ c = '\r' then c :: expandTabsGo 0 rest
    else c :: expandTabsGo (col + 1) rest

/-- Splitting into chunks: maximal runs of whitespace and of non-whitespace
characters, in order (the whitespace class is `textwrap`'s six-character
whitespace set). -/
def splitChunks : List Char → List (List Char)
  | [] => []
  | c :: rest =>
    match splitChunks rest with
    | [] => [[c]]
    | (d :: ds) :: more =>
      if isWordsepWs c = isWordsepWs d then (c :: d :: ds) :: more
      else [c] :: (d :: ds) :: more
    | [] :: more => [c] :: [] :: more

/-- The greedy inner loop of `_wrap_chunks`: pop chunks onto the current
line while they fit into the available width (an `Int`, since
`self.width - len(indent)` may be negative in Python).  Returns the chunks
taken and the chunks remaining. -/
def greedyFill (wAvail : Int) : Nat → List (List Char) → List (List Char) × List (List Char)
  | _, [] => ([], [])
  | curLen, ch :: rest =>
    if (curLen : Int) + ch.length ≤ wAvail then
      let r := greedyFill wAvail (curLen + ch.length) rest
      (ch :: r.1, r.2)
    else ([], ch :: rest)

/-- Index of the last `-` in the list, if any (Python `str.rfind("-")`). -/
def lastHyphenIdx (l : List Char) : Option Nat :=
  match l.reverse.findIdx? (fun c => c = '-') with
  | some j => some (l.length - 1 - j)
  | none => none

/-- The slice end chosen by `_handle_long_word` (with `break_long_words`
and `break_on_hyphens` both true): by default `space_left` characters, but
break just after the last hyphen inside the slice when the hyphen has a
non-hyphen character before it. -/
def handleLongEnd (chunk : List Char) (spaceLeft : Int) : Nat :=
  let e0 := spaceLeft.toNat
  if (chunk.length : Int) > spaceLeft then
    match lastHyphenIdx (chunk.take e0) with
    | some h => if 0 < h ∧ (chunk.take h).any (fun c => !(c = '-')) then h + 1 else e0
    | none => e0
  else e0

/-- The chunk-level body of one pass of the outer `while chunks:` loop of
`_wrap_chunks`, applied after the leading-whitespace drop: the greedy fill,
the long-word handling (`break_long_words`), and the trailing-whitespace
drop.  Returns the chunks of the line to emit (possibly none) and the
remaining chunks. -/
def wrapIterCore (wAvail : Int) (chunks1 : List (List Char)) :
    List (List Char) × List (List Char) :=
  let fill := greedyFill wAvail 0 chunks1
  let cur := fill.1
  let step2 :=
    match fill.2 with
    | [] => (cur, ([] : List (List Char)))
    | ch :: rs =>
      if (ch.length : Int) > wAvail then
        let curLen := (cur.map List.length).sum
        let spaceLeft : Int := if wAvail < 1 then 1 else wAvail - curLen
        let e := handleLongEnd ch spaceLeft
        (cur ++ [ch.take e], ch.drop e :: rs)
      else (cur, ch :: rs)
  let cur3 :=
    match step2.1.getLast? with
    | some lastCh => if lastCh.all pyIsSpace then step2.1.dropLast else step2.1
    | none => step2.1
  (cur3, step2.2)

/-- The outer `while chunks:` loop of `_wrap_chunks`, driven by fuel (an
upper bound on the number of iterations; every reachable iteration removes
a chunk or shortens one, see `textwrapWrap` for the bound).  `first` is
`not lines`, i.e. whether no line has been emitted yet: it selects the
indent and gates the leading-whitespace drop. -/
def wrapChunksGo (width : Nat) (ii si : List Char) :
    Nat → Bool → List (List Char) → List (List Char)
  | _, _, [] => []
  | 0, _, _ => []
  | fuel + 1, first, chs =>
    let indent := if first then ii else si
    let wAvail : Int := (width : Int) - indent.length
    let chunks1 :=
      match first, chs with
      | false, ch :: rest => if ch.all pyIsSpace then rest else chs
      | _, _ => chs
    let r := wrapIterCore wAvail chunks1
    if r.1.isEmpty then wrapChunksGo width ii si fuel first r.2
    else (indent ++ r.1.flatten) :: wrapChunksGo width ii si fuel false r.2

/-- `textwrap.wrap(text, width=width, initial_indent=ii,
subsequent_indent=si, replace_whitespace=False)` with the other options at
their defaults.  The fuel bounds the iterations of the outer loop: every
reachable iteration either removes a chunk or shortens the front chunk, so
total length + chunk count + 1 iterations suffice. -/
def textwrapWrap (width : Nat) (ii si : List Char) (text : String) : List String :=
  let chunks := splitChunks (expandTabsGo 0 text.data)
  (wrapChunksGo width ii si ((chunks.map List.length).sum + chunks.length + 1) true chunks).map
    String.mk

/-- Loop body of `wrap_lines`: blank lines yield one empty output line;
otherwise the leading whitespace run (`re.match(r"^(\s*)", line)`) becomes
both indents and the stripped content is wrapped; if wrapping returns no
sub-lines, the indent string alone is emitted. -/
def wrapLinesGo (width : Nat) : List String → List String
  | [] => []
  | l :: rest =>
    (if (pyStrip l).data.isEmpty then [""]
     else
       let indent := l.data.takeWhile pyIsSpace
       let ws := textwrapWrap width indent indent (pyStrip l)
       if ws.isEmpty then [String.mk indent] else ws) ++
    wrapLinesGo width rest

/-- `wrap_lines(lines, width)` (the source's default width is 90, and the
only call site uses the default). -/
def wrap_lines (lines : List String) (width : Nat) : List String :=
  wrapLinesGo width lines

/-! ## PDF serializer (`build_pdf`) -/

/-- Layout constant `lines_per_page = 46`. -/
def lines_per_page : Nat := 46

/-- Layout constant `page_width = 612`. -/
def page_width : Nat := 612

/-- Layout constant `page_height = 792`. -/
def page_height : Nat := 792

/-- Layout constant `margin_left = 72`. -/
def margin_left : Nat := 72

/-- Layout constant `start_y = 720`. -/
def start_y : Nat := 720

/-- Layout constant `leading = 14`. -/
def pdfLeading : Nat := 14

/-- `escape_pdf_text(text)`:
`text.replace("\\", "\\\\").replace("(", "\\(").replace(")", "\\)")`. -/
def escape_pdf_text (text : String) : String :=
  pyReplace1 ')' "\\)" (pyReplace1 '(' "\\(" (pyReplace1 '\\' "\\\\" text))

/-- The per-line tail of a page's content stream: for every page line a
show-text operator and the explicit next-line operator, then `ET`. -/
def contentTail : List String → List String
  | [] => ["ET"]
  | l :: rest => ("(" ++ escape_pdf_text l ++ ") Tj") :: "T*" :: contentTail rest

/-- The content stream for one page: the text-block prologue built from the
layout constants followed by the per-line operators. -/
def contentStreamFor (pageLines : List String) : String :=
  joinNl ("BT" :: "/F1 12 Tf" :: (toString pdfLeading ++ " TL") ::
    (toString margin_left ++ " " ++ toString start_y ++ " Td") :: contentTail pageLines)

/-- Worker for `chunkPages` (fuel-driven; each step consumes at least one
line of a non-empty list, so the list length is adequate fuel). -/
def chunkGo : Nat → List String → List (List String)
  | _, [] => []
  | 0, _ => []
  | fuel + 1, l => l.take lines_per_page :: chunkGo fuel (l.drop lines_per_page)

/-- `range(0, len(lines), lines_per_page)` slicing: partition the line list
into pages of at most 46 lines. -/
def chunkPages (lines : List String) : List (List String) :=
  chunkGo lines.length lines

/-- Object 1, the document catalog. -/
def catalogObj : String := "<< /Type /Catalog /Pages 2 0 R >>"

/-- Object 2, the page tree over page objects `3 .. 3+p-1`. -/
def pagesObj (p : Nat) : String :=
  "<< /Type /Pages /Kids [" ++
    String.intercalate " " ((List.range p).map (fun i => toString (3 + i) ++ " 0 R")) ++
    "] /Count " ++ toString p ++ " >>"

/-- The Page object for page index `idx` (0-based) of `p` pages: its
content stream is object `content_objects_start + idx = 3 + p + idx` and
the shared font resource is object `3 + 2p`. -/
def pageObj (p idx : Nat) : String :=
  "<< /Type /Page /Parent 2 0 R /MediaBox [0 0 " ++ toString page_width ++ " " ++
    toString page_height ++ "] /Contents " ++ toString (3 + p + idx) ++
    " 0 R /Resources << /Font << /F1 " ++ toString (3 + p + p) ++ " 0 R >> >> >>"

/-- A content-stream object: the stream dictionary declares the stream's
raw byte length. -/
def streamObj (stream : String) : String :=
  "<< /Length " ++ toString (bsize stream) ++ " >>\nstream\n" ++ stream ++ "\nendstream"

/-- The final object, the shared font resource. -/
def fontObj : String := "<< /Type /Font /Subtype /Type1 /BaseFont /Helvetica >>"

/-- The object list built by the `add_obj` calls of `build_pdf`, in order:
catalog, page tree, one Page object per page, one content-stream object
per page, then the font object. -/
def objectsFor (lines : List String) : List String :=
  let streams := (chunkPages lines).map contentStreamFor
  let p := streams.length
  catalogObj :: pagesObj p ::
    ((List.range p).map (pageObj p) ++ streams.map streamObj ++ [fontObj])

/-- The serialization loop of `build_pdf`: starting at object number
`index` and byte offset `curr`, wrap each object body in
`"<n> 0 obj\n" .. "\nendobj\n"`, recording each object's starting offset.
Returns (offsets, body parts, final offset). -/
def serLoop : Nat → Nat → List String → List Nat × List String × Nat
  | _, curr, [] => ([], [], curr)
  | index, curr, content :: rest =>
    let ob := toString index ++ " 0 obj\n" ++ content ++ "\nendobj\n"
    let r := serLoop (index + 1) (curr + bsize ob) rest
    (curr :: r.1, ob :: r.2.1, r.2.2)

/-- The fixed `%PDF-1.4` header. -/
def pdfHeader : String := "%PDF-1.4\n"

/-- One in-use cross-reference entry: 10-digit zero-padded offset,
generation `00000`, flag `n`. -/
def xrefEntry (off : Nat) : String := zfill10 off ++ " 00000 n "

/-- `build_pdf(lines, output_path)` as the byte string written to
`output_path` (offsets are UTF-8 byte offsets, as in the Python code's
`encode("utf-8")` lengths). -/
def build_pdf (lines : List String) : String :=
  let objs := objectsFor lines
  let ser := serLoop 1 (bsize pdfHeader) objs
  let xref := joinNl (("xref\n0 " ++ toString (objs.length + 1)) ::
    "0000000000 65535 f " :: ser.1.map xrefEntry)
  let trailer := "trailer\n<< /Size " ++ toString (objs.length + 1) ++
    " /Root 1 0 R >>\nstartxref\n" ++ toString ser.2.2 ++ "\n%%EOF\n"
  pdfHeader ++ String.join ser.2.1 ++ xref ++ "\n" ++ trailer

/-- Run-dependent state a Python process could observe (clock, PRNG seed,
process id, output path).  `build_pdf` reads none of these; threading the
record through the embedding makes that observable as a theorem. -/
structure RunEnv where
  systemTimeNs : Nat
  randomSeed : Nat
  processId : Nat
  outputPath : String

/-- `build_pdf` as run inside a process environment: the produced byte
stream is the pure `build_pdf` of the line list (the source consults no
clock, randomness, process identity, or path-dependent data). -/
def buildPdfInEnv (_env : RunEnv) (lines : List String) : String :=
  build_pdf lines

/-! ## Combined markdown builder and `main`'s PDF line sequence -/

/-- The file system, as a partial map from project-root-relative paths to
file contents: `fs p = some text` models `path.exists()` and
`path.read_text()`. -/
def FileSystem : Type := String → Option String

/-- `build_combined_markdown(entries)`: per entry a level-1 heading line,
a blank line, then either the file contents right-stripped or the missing
placeholder, then a blank line. -/
def build_combined_markdown (fs : FileSystem) : List (String × String) → List String
  | [] => []
  | (title, path) :: rest =>
    ("# " ++ title) :: "" ::
      (match fs path with
       | none => ("[Missing file: " ++ path ++ "]") :: "" :: build_combined_markdown fs rest
       | some md => pyRstrip md :: "" :: build_combined_markdown fs rest)

/-- `write_combined_markdown(lines, output_path)` as the text written:
`"\n".join(lines).strip() + "\n"`. -/
def write_combined_markdown (lines : List String) : String :=
  pyStrip (joinNl lines) ++ "\n"

/-- The `"=" * 80` separator bar used by `main`. -/
def eqBar : String := String.mk (List.replicate 80 '=')

/-- The text line sequence `main` accumulates for the PDF (before
wrapping): per entry a bar, the title, a bar, a blank line, then either the
missing placeholder and a blank line or the normalized document followed by
a blank line. -/
def mainPdfLines (fs : FileSystem) : List (String × String) → List String
  | [] => []
  | (title, path) :: rest =>
    eqBar :: title :: eqBar :: "" ::
      (match fs path with
       | none => ("[Missing file: " ++ path ++ "]") :: "" :: mainPdfLines fs rest
       | some md => normalize_markdown md ++ [""] ++ mainPdfLines fs rest)

/-- The PDF byte stream `main` writes: the wrapped line sequence rendered
by `build_pdf` (the call site uses the default width 90). -/
def mainPdfBytes (fs : FileSystem) (entries : List (String × String)) : String :=
  build_pdf (wrap_lines (mainPdfLines fs entries) 90)

/-! ## Theorems: manifest parser -/

/-- The manifest loop is a filterMap over the manifest's lines: every
matching line contributes exactly its (stripped) first match, in line
order, and non-matching lines are skipped. -/
theorem extractGo_eq_filterMap (ls : List String) :
    extractGo ls =
      ls.filterMap (fun l =>
        (searchMdLink l.data).map (fun tp => (pyStrip (String.mk tp.1), String.mk tp.2))) := by
  induction ls with
  | nil => rfl
  | cons l rest ih =>
    cases h : searchMdLink l.data with
    | none => simp [extractGo, h, ih]
    | some tp =>
      cases tp with
      | mk t p => simp [extractGo, h, ih]

/-- Auxiliary: the length of the filterMap above equals the number of lines
on which the link search succeeds. -/
theorem extractGo_length (ls : List String) :
    (extractGo ls).length =
      (ls.filter (fun l => (searchMdLink l.data).isSome)).length := by
  induction ls with
  | nil => rfl
  | cons l rest ih =>
    cases h : searchMdLink l.data with
    | none => simp [extractGo, h, ih]
    | some tp =>
      cases tp with
      | mk t p => simp [extractGo, h, ih]

/-- C6: for every manifest input, `extract_summary_entries` produces exactly
one entry per line containing the markdown-link pattern (only the leftmost
match of a line is taken), in the same relative order as the lines appear
in the manifest, and lines without a match are skipped without error: the
result is the in-order filterMap of the leftmost per-line matches, and its
length is the number of matching lines. -/
theorem extract_summary_entries_per_line (summaryText : String) :
    extract_summary_entries summaryText =
      (pySplitlines summaryText).filterMap (fun l =>
        (searchMdLink l.data).map (fun tp => (pyStrip (String.mk tp.1), String.mk tp.2))) ∧
    (extract_summary_entries summaryText).length =
      ((pySplitlines summaryText).filter (fun l => (searchMdLink l.data).isSome)).length :=
  ⟨extractGo_eq_filterMap (pySplitlines summaryText),
   extractGo_length (pySplitlines summaryText)⟩

/-! ## Theorems: PDF text escaping (C8) -/

/-- Per-character escaping: the PDF string-literal specials `\`, `(`, `)`
acquire a preceding backslash; every other character is unchanged. -/
def escChar (c : Char) : List Char :=
  if c = '\\' ∨ c = '(' ∨ c = ')' then ['\\', c] else [c]

/-- The three sequential `str.replace` passes applied per character: the
backslash-doubling pass followed by the two paren-escaping passes equal a
single pass of `escChar` (backslashes introduced by escaping parens are not
re-doubled, because the backslash pass runs first). -/
theorem escape_chain_data (l : List Char) :
    ((l.flatMap (fun a => if a = '\\' then ['\\', '\\'] else [a])).flatMap
          (fun a => if a = '(' then ['\\', '('] else [a])).flatMap
        (fun a => if a = ')' then ['\\', ')'] else [a]) = l.flatMap escChar := by
  induction l with
  | nil => rfl
  | cons c cs ih =>
    rw [List.flatMap_cons, List.flatMap_append, List.flatMap_append, List.flatMap_cons, ih]
    congr 1
    by_cases h1 : c = '\\'
    · subst h1; rfl
    · by_cases h2 : c = '('
      · subst h2; rfl
      · by_cases h3 : c = ')'
        · subst h3; rfl
        · simp [escChar, h1, h2, h3]

/-- `escape_pdf_text` acts as the per-character map `escChar`: each literal
backslash and parenthesis is preceded by one backslash, and no other
character is altered. -/
theorem escape_pdf_text_data (l : List Char) :
    (escape_pdf_text (String.mk l)).data = l.flatMap escChar := by
  simpa [escape_pdf_text, pyReplace1] using escape_chain_data l

/-- The content-stream tail is, for each page line in order, the show-text
operator on the escaped line followed by the explicit next-line operator,
and then the end-of-text-block operator. -/
theorem contentTail_eq_flatMap (pageLines : List String) :
    contentTail pageLines =
      pageLines.flatMap (fun l => [("(" ++ escape_pdf_text l ++ ") Tj"), "T*"]) ++ ["ET"] := by
  induction pageLines with
  | nil => rfl
  | cons l rest ih => simp [contentTail, ih]

/-- C8: for every text line embedded in a PDF content stream, each literal
backslash, `(` and `)` in the line is preceded by a backslash in the
emitted string-literal operand and no other character is altered
(`escape_pdf_text` is the per-character map `escChar`), and each escaped
line is emitted as a show-text operator `(...) Tj` immediately followed by
the next-line operator `T*` inside the page's `BT`/`ET` text block. -/
theorem pdf_escaping_and_stream_shape (pageLines : List String) :
    (∀ l : List Char, (escape_pdf_text (String.mk l)).data = l.flatMap escChar) ∧
    (∀ c : Char, ((c = '\\' ∨ c = '(' ∨ c = ')') → escChar c = ['\\', c]) ∧
      (¬(c = '\\' ∨ c = '(' ∨ c = ')') → escChar c = [c])) ∧
    contentStreamFor pageLines =
      joinNl (["BT", "/F1 12 Tf", "14 TL", "72 720 Td"] ++
        pageLines.flatMap (fun l => [("(" ++ escape_pdf_text l ++ ") Tj"), "T*"]) ++ ["ET"]) := by
  refine ⟨escape_pdf_text_data, ?_, ?_⟩
  · intro c
    constructor
    · intro h; simp [escChar, h]
    · intro h; simp [escChar, h]
  · rw [contentStreamFor, contentTail_eq_flatMap]
    rfl

/-- Witness for C8 at concrete inputs: the specials in `a()\` each gain a
preceding backslash; `(` maps to `\(` and a plain character is unchanged. -/
theorem pdf_escaping_and_stream_shape_witness :
    (escape_pdf_text (String.mk ['a', '(', ')', '\\'])).data =
      ['a', '\\', '(', '\\', ')', '\\', '\\'] ∧
    escChar '(' = ['\\', '('] ∧ escChar 'x' = ['x'] := by
  have h := pdf_escaping_and_stream_shape []
  refine ⟨?_, (h.2.1 '(').1 (by decide), (h.2.1 'x').2 (by decide)⟩
  rw [h.1 ['a', '(', ')', '\\']]
  decide

/-! ## Theorems: heading normalization (C5) -/

/-- C5: outside a fenced code block, a line that is not a fence or
templating or image line and whose markup-stripped form starts with `#`
(a pure heading) yields exactly the heading text followed by a blank line
when the heading text is non-empty, and yields no output lines at all when
the heading text is empty; the fenced-code flag is unchanged. -/
theorem heading_two_lines_or_none (rawLine : String)
    (hFence : strStarts (pyStrip (pyRstrip rawLine)) "```" = false)
    (hTmpl : strStarts (pyStrip (pyRstrip rawLine)) "\x7b%" = false)
    (hImg : imageMatch (pyRstrip rawLine).data = none)
    (r : List Char)
    (hHead : (stripPipeline (pyRstrip rawLine)).data = '#' :: r) :
    normStep false rawLine =
      (false,
        if (pyStrip (String.mk
              (((stripPipeline (pyRstrip rawLine)).data.dropWhile (fun c => c = '#')).dropWhile
                pyIsSpace))).data.isEmpty
        then []
        else [pyStrip (String.mk
            (((stripPipeline (pyRstrip rawLine)).data.dropWhile (fun c => c = '#')).dropWhile
              pyIsSpace)), ""]) := by
  have hm : headingMatch (stripPipeline (pyRstrip rawLine)) =
      some (String.mk
        (((stripPipeline (pyRstrip rawLine)).data.dropWhile (fun c => c = '#')).dropWhile
          pyIsSpace)) := by
    rw [headingMatch, hHead]
    rfl
  simp only [normStep, hFence, hTmpl, hImg, hm]
  simp

/-- Witness for C5: `## Hi` yields the heading text and a blank line;
`#` (empty heading) yields no output lines. -/
theorem heading_two_lines_or_none_witness :
    normStep false "## Hi" = (false, ["Hi", ""]) ∧
    normStep false "#" = (false, []) := by
  constructor
  · have h := heading_two_lines_or_none "## Hi" (by decide) (by decide) (by decide)
      ('#' :: " Hi".data) (by decide)
    rw [h]; decide
  · have h := heading_two_lines_or_none "#" (by decide) (by decide) (by decide)
      ([] : List Char) (by decide)
    rw [h]; decide

/-! ## Theorems: fenced code blocks (C3) -/

/-- Counterexample to C3 as stated: a fenced-block line starting with the
templating delimiter is dropped entirely (the `{%` check precedes the
inside-code-block check), and fenced-block lines are right-trimmed before
the 4-space prefix is added; so not every fenced line is emitted with
exactly a 4-space prefix "and no other transformation". -/
theorem fenced_block_counterexample :
    ¬ ("    \x7b% raw" ∈ normalize_markdown "```\n\x7b% raw\n```") ∧
    normalize_markdown "```\n\x7b% raw\n```" = [] ∧
    normalize_markdown "```\nx  \n```" = ["    x"] ∧
    ¬ ("    x  " ∈ normalize_markdown "```\nx  \n```") := by decide

/-- C3 (amended): while inside a fenced block, a line whose stripped form
starts with the fence marker toggles the flag and is never emitted; a line
whose stripped form starts with `{%` is dropped entirely; every other line
is emitted right-trimmed with exactly a 4-space prefix and no further
transformation. -/
theorem fenced_block_amended (b : Bool) (rawLine : String) :
    (strStarts (pyStrip (pyRstrip rawLine)) "```" = true →
      normStep b rawLine = (!b, [])) ∧
    (strStarts (pyStrip (pyRstrip rawLine)) "```" = false →
      strStarts (pyStrip (pyRstrip rawLine)) "\x7b%" = true →
      normStep true rawLine = (true, [])) ∧
    (strStarts (pyStrip (pyRstrip rawLine)) "```" = false →
      strStarts (pyStrip (pyRstrip rawLine)) "\x7b%" = false →
      normStep true rawLine = (true, ["    " ++ pyRstrip rawLine])) := by
  refine ⟨fun h1 => ?_, fun h1 h2 => ?_, fun h1 h2 => ?_⟩
  · simp [normStep, h1]
  · simp [normStep, h1, h2]
  · simp [normStep, h1, h2]

/-- Witness for the amended C3: a fence line toggles and emits nothing; a
`{%` line inside a fence is dropped; an ordinary fenced line is emitted
right-trimmed with the 4-space prefix. -/
theorem fenced_block_amended_witness :
    normStep false "```" = (true, []) ∧
    normStep true "\x7b% x" = (true, []) ∧
    normStep true "code  " = (true, ["    code"]) := by
  have h1 := fenced_block_amended false "```"
  have h2 := fenced_block_amended true "\x7b% x"
  have h3 := fenced_block_amended true "code  "
  refine ⟨h1.1 (by decide), h2.2.1 (by decide) (by decide), ?_⟩
  rw [h3.2.2 (by decide) (by decide)]
  decide

/-! ## Theorems: combined markdown builder (C9, C7) -/

/-- The four-line block the combined-markdown builder emits per entry. -/
def combinedBlock (fs : FileSystem) (e : String × String) : List String :=
  ("# " ++ e.1) :: "" ::
    (match fs e.2 with
     | none => [("[Missing file: " ++ e.2 ++ "]"), ""]
     | some md => [pyRstrip md, ""])

/-- The block `main` appends to the PDF text line sequence per entry. -/
def mainBlock (fs : FileSystem) (e : String × String) : List String :=
  eqBar :: e.1 :: eqBar :: "" ::
    (match fs e.2 with
     | none => [("[Missing file: " ++ e.2 ++ "]"), ""]
     | some md => normalize_markdown md ++ [""])

/-- The combined-markdown loop emits exactly one block per entry, in entry
order. -/
theorem build_combined_markdown_eq_flatMap (fs : FileSystem) (entries : List (String × String)) :
    build_combined_markdown fs entries = entries.flatMap (combinedBlock fs) := by
  induction entries with
  | nil => rfl
  | cons e rest ih =>
    cases e with
    | mk t p =>
      cases h : fs p with
      | none => simp [build_combined_markdown, combinedBlock, h, ih]
      | some md => simp [build_combined_markdown, combinedBlock, h, ih]

/-- `main`'s PDF text loop emits exactly one block per entry, in entry
order. -/
theorem mainPdfLines_eq_flatMap (fs : FileSystem) (entries : List (String × String)) :
    mainPdfLines fs entries = entries.flatMap (mainBlock fs) := by
  induction entries with
  | nil => rfl
  | cons e rest ih =>
    cases e with
    | mk t p =>
      cases h : fs p with
      | none => simp [mainPdfLines, mainBlock, h, ih]
      | some md => simp [mainPdfLines, mainBlock, h, ih]

/-- C9: the combined markdown output is, per manifest entry in order, a
level-1 heading line with the entry's title, a blank line, the entry's raw
file contents right-trimmed, and a blank line; in particular for manifest
entry `[Intro](a.md)` where `a.md` holds `# Hello\nWorld`, the written
combined markdown file is exactly `# Intro\n\n# Hello\nWorld\n`. -/
theorem combined_markdown_blocks (fs : FileSystem) (entries : List (String × String)) :
    build_combined_markdown fs entries = entries.flatMap (combinedBlock fs) ∧
    (∀ t p c, fs p = some c → combinedBlock fs (t, p) = ["# " ++ t, "", pyRstrip c, ""]) ∧
    (fs "a.md" = some "# Hello\nWorld" →
      write_combined_markdown (build_combined_markdown fs [("Intro", "a.md")]) =
        "# Intro\n\n# Hello\nWorld\n") := by
  refine ⟨build_combined_markdown_eq_flatMap fs entries, ?_, ?_⟩
  · intro t p c h
    simp [combinedBlock, h]
  · intro h
    simp only [build_combined_markdown, h, write_combined_markdown]
    decide

/-- The file system of end-to-end scenario 1: only `a.md` exists. -/
def fsScenario1 : FileSystem :=
  fun p => if p = "a.md" then some "# Hello\nWorld" else none

/-- Witness for C9: the concrete scenario-1 output equality. -/
theorem combined_markdown_blocks_witness :
    write_combined_markdown (build_combined_markdown fsScenario1 [("Intro", "a.md")]) =
      "# Intro\n\n# Hello\nWorld\n" ∧
    combinedBlock fsScenario1 ("Intro", "a.md") = ["# Intro", "", "# Hello\nWorld", ""] := by
  have h := combined_markdown_blocks fsScenario1 []
  refine ⟨h.2.2 (by decide), ?_⟩
  have h2 := h.2.1 "Intro" "a.md" "# Hello\nWorld" (by decide)
  rw [h2]
  decide

/-- C7: a manifest entry whose target file does not exist is non-fatal:
both the combined-markdown builder and `main`'s PDF text loop substitute
the literal placeholder line naming the missing relative path and continue
with the remaining entries (the output decomposes around the missing
entry's block, with the entries before and after processed unchanged). -/
theorem missing_file_placeholder (fs : FileSystem) (pre post : List (String × String))
    (title path : String) (hmiss : fs path = none) :
    build_combined_markdown fs (pre ++ (title, path) :: post) =
      build_combined_markdown fs pre ++
        (["# " ++ title, "", "[Missing file: " ++ path ++ "]", ""] ++
          build_combined_markdown fs post) ∧
    mainPdfLines fs (pre ++ (title, path) :: post) =
      mainPdfLines fs pre ++
        ([eqBar, title, eqBar, "", "[Missing file: " ++ path ++ "]", ""] ++
          mainPdfLines fs post) ∧
    ("[Missing file: " ++ path ++ "]") ∈
      build_combined_markdown fs (pre ++ (title, path) :: post) ∧
    ("[Missing file: " ++ path ++ "]") ∈ mainPdfLines fs (pre ++ (title, path) :: post) := by
  have h1 : build_combined_markdown fs (pre ++ (title, path) :: post) =
      build_combined_markdown fs pre ++
        (["# " ++ title, "", "[Missing file: " ++ path ++ "]", ""] ++
          build_combined_markdown fs post) := by
    rw [build_combined_markdown_eq_flatMap, List.flatMap_append, List.flatMap_cons,
      ← build_combined_markdown_eq_flatMap, ← build_combined_markdown_eq_flatMap]
    simp [combinedBlock, hmiss]
  have h2 : mainPdfLines fs (pre ++ (title, path) :: post) =
      mainPdfLines fs pre ++
        ([eqBar, title, eqBar, "", "[Missing file: " ++ path ++ "]", ""] ++
          mainPdfLines fs post) := by
    rw [mainPdfLines_eq_flatMap, List.flatMap_append, List.flatMap_cons,
      ← mainPdfLines_eq_flatMap, ← mainPdfLines_eq_flatMap]
    simp [mainBlock, hmiss]
  refine ⟨h1, h2, ?_, ?_⟩
  · rw [h1]; simp
  · rw [h2]; simp

/-- The file system of end-to-end scenario 2: no file exists. -/
def fsEmpty : FileSystem := fun _ => none

/-- Witness for C7: for the manifest entry `[Missing](b.md)` with `b.md`
absent, the placeholder line appears in the combined markdown, in the PDF
text line sequence, and in the wrapped line sequence handed to
`build_pdf`. -/
theorem missing_file_placeholder_witness :
    ("[Missing file: b.md]" ∈ build_combined_markdown fsEmpty [("Missing", "b.md")]) ∧
    ("[Missing file: b.md]" ∈ mainPdfLines fsEmpty [("Missing", "b.md")]) ∧
    ("[Missing file: b.md]" ∈ wrap_lines (mainPdfLines fsEmpty [("Missing", "b.md")]) 90) := by
  have h := missing_file_placeholder fsEmpty [] [] "Missing" "b.md" (by decide)
  exact ⟨h.2.2.1, h.2.2.2, by decide⟩

/-! ## Theorems: determinism (C10) -/

/-- C10: `build_pdf` is deterministic: its output byte stream is a pure
function of the input line list; it does not consult the clock, PRNG,
process identity, or output path, so two runs in different environments on
equal line lists produce byte-identical output. -/
theorem build_pdf_deterministic (lines : List String) (e1 e2 : RunEnv) :
    buildPdfInEnv e1 lines = buildPdfInEnv e2 lines ∧
    buildPdfInEnv e1 lines = build_pdf lines :=
  ⟨rfl, rfl⟩

/-! ## Theorems: pagination and object numbering (C2) -/

/-- `chunkGo` with adequate fuel partitions the list into pages: the pages
concatenate back to the input, there are ceil(len/46) of them, and each has
at most 46 lines. -/
theorem chunkGo_spec (fuel : Nat) : ∀ l : List String, l.length ≤ fuel →
    (chunkGo fuel l).flatten = l ∧
    (chunkGo fuel l).length = (l.length + 45) / 46 ∧
    ∀ p ∈ chunkGo fuel l, p.length ≤ 46 := by
  induction fuel with
  | zero =>
    intro l h
    have hl : l = [] := List.length_eq_zero.mp (Nat.le_zero.mp h)
    subst hl
    refine ⟨rfl, by decide, ?_⟩
    intro p hp
    cases hp
  | succ fuel ih =>
    intro l h
    cases l with
    | nil =>
      refine ⟨rfl, ?_, ?_⟩
      · show (0 : Nat) = (0 + 45) / 46
        decide
      · intro p hp
        rw [show chunkGo (fuel + 1) ([] : List String) = [] from rfl] at hp
        cases hp
    | cons x xs =>
      have hred : chunkGo (fuel + 1) (x :: xs) =
          (x :: xs).take lines_per_page :: chunkGo fuel ((x :: xs).drop lines_per_page) := rfl
      have hlen : ((x :: xs).drop lines_per_page).length ≤ fuel := by
        simp only [List.length_drop, List.length_cons, lines_per_page]
        simp only [List.length_cons] at h
        omega
      obtain ⟨ihf, ihl, ihp⟩ := ih ((x :: xs).drop lines_per_page) hlen
      refine ⟨?_, ?_, ?_⟩
      · rw [hred]
        simp only [List.flatten_cons, ihf, List.take_append_drop]
      · rw [hred]
        simp only [lines_per_page] at ihl ⊢
        simp only [List.length_cons, ihl, List.length_drop, List.length_cons]
        omega
      · intro p hp
        rw [hred] at hp
        rcases List.mem_cons.mp hp with h1 | h1
        · subst h1
          simp [List.length_take, lines_per_page]
        · exact ihp p h1

/-- The object list laid out explicitly, with page count written as the
page-partition length. -/
theorem objectsFor_eq (lines : List String) :
    objectsFor lines =
      catalogObj :: pagesObj (chunkPages lines).length ::
        ((List.range (chunkPages lines).length).map (pageObj (chunkPages lines).length) ++
          ((chunkPages lines).map contentStreamFor).map streamObj ++ [fontObj]) := by
  simp [objectsFor]

/-- C2: `build_pdf` partitions the input into ceil(L/46) pages of at most
46 lines (concatenating back to the input) and allocates object numbers in
the fixed scheme: object 1 = catalog, object 2 = page tree, objects
3..(3+P-1) = the Page objects, the next P objects = the content streams
(each declaring its own raw byte length), and object 3+2P = the font
resource; an input of exactly 92 lines yields exactly 2 pages whose Page
objects (numbers 3 and 4) reference distinct content streams (objects 5
and 6).  Indices into `objectsFor` are 0-based; the object number of index
k is k+1. -/
theorem pdf_pagination_objects (lines : List String) :
    (chunkPages lines).flatten = lines ∧
    (chunkPages lines).length = (lines.length + 45) / 46 ∧
    (∀ p ∈ chunkPages lines, p.length ≤ lines_per_page) ∧
    (objectsFor lines).length = 2 * (chunkPages lines).length + 3 ∧
    (objectsFor lines)[0]? = some catalogObj ∧
    (objectsFor lines)[1]? = some (pagesObj (chunkPages lines).length) ∧
    (∀ i, i < (chunkPages lines).length →
      (objectsFor lines)[i + 2]? = some (pageObj (chunkPages lines).length i)) ∧
    (∀ i, i < (chunkPages lines).length →
      (objectsFor lines)[(chunkPages lines).length + i + 2]? =
        ((chunkPages lines)[i]?).map (fun pg => streamObj (contentStreamFor pg))) ∧
    (objectsFor lines)[2 * (chunkPages lines).length + 2]? = some fontObj ∧
    (∀ s, streamObj s =
      "<< /Length " ++ toString (bsize s) ++ " >>\nstream\n" ++ s ++ "\nendstream") ∧
    (lines.length = 92 →
      (chunkPages lines).length = 2 ∧
      (objectsFor lines)[2]? = some (pageObj 2 0) ∧
      (objectsFor lines)[3]? = some (pageObj 2 1) ∧
      pageObj 2 0 =
        "<< /Type /Page /Parent 2 0 R /MediaBox [0 0 612 792] /Contents 5 0 R /Resources << /Font << /F1 7 0 R >> >> >>" ∧
      pageObj 2 1 =
        "<< /Type /Page /Parent 2 0 R /MediaBox [0 0 612 792] /Contents 6 0 R /Resources << /Font << /F1 7 0 R >> >> >>" ∧
      pageObj 2 0 ≠ pageObj 2 1) := by
  obtain ⟨hflat0, hlen0, hpages0⟩ := chunkGo_spec lines.length lines (Nat.le_refl _)
  have hflat : (chunkPages lines).flatten = lines := hflat0
  have hlen : (chunkPages lines).length = (lines.length + 45) / 46 := hlen0
  have hpages : ∀ p ∈ chunkPages lines, p.length ≤ lines_per_page := hpages0
  have hP : ∀ i, i < (chunkPages lines).length →
      (objectsFor lines)[i + 2]? = some (pageObj (chunkPages lines).length i) := by
    intro i hi
    rw [objectsFor_eq]
    simp only [List.getElem?_cons_succ, List.append_assoc]
    rw [List.getElem?_append_left (by simpa using hi)]
    simp [List.getElem?_range, hi]
  have hS : ∀ i, i < (chunkPages lines).length →
      (objectsFor lines)[(chunkPages lines).length + i + 2]? =
        ((chunkPages lines)[i]?).map (fun pg => streamObj (contentStreamFor pg)) := by
    intro i hi
    rw [objectsFor_eq]
    simp only [List.getElem?_cons_succ, List.append_assoc]
    rw [List.getElem?_append_right (by simp)]
    simp only [List.length_map, List.length_range, Nat.add_sub_cancel_left]
    rw [List.getElem?_append_left (by simpa using hi)]
    simp only [List.getElem?_map, Option.map_map]
    rfl
  have hF : (objectsFor lines)[2 * (chunkPages lines).length + 2]? = some fontObj := by
    rw [objectsFor_eq]
    simp only [List.getElem?_cons_succ, List.append_assoc]
    rw [List.getElem?_append_right (by simp; omega)]
    rw [List.getElem?_append_right (by simp; omega)]
    simp only [List.length_map, List.length_range]
    rw [show 2 * (chunkPages lines).length - (chunkPages lines).length -
        (chunkPages lines).length = 0 by omega]
    rfl
  refine ⟨hflat, hlen, hpages, ?_, by rw [objectsFor_eq]; rfl, by rw [objectsFor_eq]; simp,
    hP, hS, hF, fun s => rfl, ?_⟩
  · rw [objectsFor_eq]
    simp only [List.length_cons, List.length_append, List.length_map, List.length_range,
      List.length_nil]
    omega
  · intro h92
    have h2 : (chunkPages lines).length = 2 := by
      rw [hlen, h92]
    refine ⟨h2, ?_, ?_, by decide, by decide, by decide⟩
    · have h := hP 0 (by omega)
      rw [h2] at h
      simpa using h
    · have h := hP 1 (by omega)
      rw [h2] at h
      simpa using h

/-- Witness for C2 at a concrete 92-line input: exactly 2 pages, Page
objects at indices 2 and 3 (numbers 3 and 4), with distinct content-stream
references. -/
theorem pdf_pagination_objects_witness :
    (chunkPages (List.replicate 92 "a")).length = 2 ∧
    (objectsFor (List.replicate 92 "a"))[2]? = some (pageObj 2 0) ∧
    (objectsFor (List.replicate 92 "a"))[3]? = some (pageObj 2 1) ∧
    pageObj 2 0 ≠ pageObj 2 1 := by
  have h := (pdf_pagination_objects (List.replicate 92 "a")).2.2.2.2.2.2.2.2.2.2 (by simp)
  exact ⟨h.1, h.2.1, h.2.2.1, h.2.2.2.2.2⟩

/-! ## Theorems: the cross-reference invariant (C1) -/

theorem join_cons (a : String) (l : List String) :
    String.join (a :: l) = a ++ String.join l := by
  rw [String.join_eq, String.join_eq]
  cases a with
  | mk d => rfl

theorem bsize_empty : bsize "" = 0 := rfl

/-- Unfolding of one step of the serialization loop. -/
theorem serLoop_cons (index curr : Nat) (c : String) (rest : List String) :
    serLoop index curr (c :: rest) =
      (curr :: (serLoop (index + 1)
          (curr + bsize (toString index ++ " 0 obj\n" ++ c ++ "\nendobj\n")) rest).1,
        (toString index ++ " 0 obj\n" ++ c ++ "\nendobj\n") ::
          (serLoop (index + 1)
            (curr + bsize (toString index ++ " 0 obj\n" ++ c ++ "\nendobj\n")) rest).2.1,
        (serLoop (index + 1)
          (curr + bsize (toString index ++ " 0 obj\n" ++ c ++ "\nendobj\n")) rest).2.2) := rfl

/-- The final offset returned by the serialization loop is the starting
offset plus the total byte length of the emitted body parts. -/
theorem serLoop_final (objs : List String) : ∀ index curr : Nat,
    (serLoop index curr objs).2.2 = curr + bsize (String.join (serLoop index curr objs).2.1) := by
  induction objs with
  | nil =>
    intro index curr
    show curr = curr + bsize (String.join [])
    rw [show String.join ([] : List String) = "" from rfl, bsize_empty]
    omega
  | cons c rest ih =>
    intro index curr
    rw [serLoop_cons, join_cons]
    generalize (toString index ++ " 0 obj\n" ++ c ++ "\nendobj\n") = ob
    rw [ih, bsize_append]
    omega

/-- The offset list returned by the serialization loop has one entry per
object. -/
theorem serLoop_length (objs : List String) : ∀ index curr : Nat,
    (serLoop index curr objs).1.length = objs.length := by
  induction objs with
  | nil => intro index curr; rfl
  | cons c rest ih =>
    intro index curr
    rw [serLoop_cons]
    simp [ih]

/-- Locating each object inside the serialized body: for every object
position `i` there is an offset entry, and the body splits as
`a ++ "<index+i> 0 obj\n<object>\nendobj\n" ++ b` where `a` occupies
exactly `offset - curr` bytes. -/
theorem serLoop_locate (objs : List String) : ∀ index curr i : Nat, i < objs.length →
    ∃ (off : Nat) (content a b : String),
      (serLoop index curr objs).1[i]? = some off ∧
      objs[i]? = some content ∧
      String.join (serLoop index curr objs).2.1 =
        a ++ (toString (index + i) ++ " 0 obj\n" ++ content ++ "\nendobj\n") ++ b ∧
      curr + bsize a = off := by
  induction objs with
  | nil =>
    intro index curr i hi
    cases hi
  | cons c rest ih =>
    intro index curr i hi
    cases i with
    | zero =>
      refine ⟨curr, c, "", String.join (serLoop (index + 1)
        (curr + bsize (toString index ++ " 0 obj\n" ++ c ++ "\nendobj\n")) rest).2.1,
        ?_, by simp, ?_, ?_⟩
      · rw [serLoop_cons]
        simp
      · rw [serLoop_cons, join_cons, String.empty_append]
        rw [show index + 0 = index from rfl]
      · rw [bsize_empty]
        omega
    | succ j =>
      have hj : j < rest.length := by
        simp only [List.length_cons] at hi
        omega
      obtain ⟨off, content, a, b, h1, h2, h3, h4⟩ :=
        ih (index + 1) (curr + bsize (toString index ++ " 0 obj\n" ++ c ++ "\nendobj\n")) j hj
      refine ⟨off, content, (toString index ++ " 0 obj\n" ++ c ++ "\nendobj\n") ++ a, b,
        ?_, ?_, ?_, ?_⟩
      · rw [serLoop_cons]
        simpa using h1
      · simpa using h2
      · rw [serLoop_cons, join_cons, h3]
        rw [show index + (j + 1) = index + 1 + j from by omega]
        simp only [String.append_assoc]
      · rw [bsize_append]
        omega

theorem bsize_eq_utf8Len (s : String) : bsize s = String.utf8Len s.data := by
  cases s with
  | mk l => rfl

theorem strLength_data (s : String) : s.length = s.data.length := rfl

/-- Every character `Nat.digitChar` can produce is a 1-byte (ASCII)
character. -/
theorem digitChar_utf8Size (m : Nat) : (Nat.digitChar m).utf8Size = 1 := by
  rcases Nat.lt_or_ge m 16 with h | h
  · interval_cases m <;> decide
  · have hds : Nat.digitChar m = '*' := by
      unfold Nat.digitChar
      repeat rw [if_neg (by omega)]
    rw [hds]
    decide

theorem utf8Len_of_ascii (l : List Char) (h : ∀ c ∈ l, c.utf8Size = 1) :
    String.utf8Len l = l.length := by
  induction l with
  | nil => rfl
  | cons c cs ih =>
    rw [String.utf8Len_cons, ih (fun d hd => h d (List.mem_cons_of_mem c hd)),
      h c (List.mem_cons_self c cs)]
    simp

/-- All characters produced by `Nat.toDigitsCore` over an ASCII accumulator
are ASCII. -/
theorem toDigitsCore_ascii (b : Nat) : ∀ (f n : Nat) (acc : List Char),
    (∀ c ∈ acc, c.utf8Size = 1) → ∀ c ∈ Nat.toDigitsCore b f n acc, c.utf8Size = 1 := by
  intro f
  induction f with
  | zero =>
    intro n acc hacc c hc
    exact hacc c hc
  | succ f ih =>
    intro n acc hacc c hc
    rw [Nat.toDigitsCore] at hc
    have hacc2 : ∀ c ∈ Nat.digitChar (n % b) :: acc, c.utf8Size = 1 := by
      intro d hd
      rcases List.mem_cons.mp hd with h1 | h1
      · subst h1
        exact digitChar_utf8Size (n % b)
      · exact hacc d h1
    by_cases hz : n / b = 0
    · simp only [hz, if_true] at hc
      exact hacc2 c hc
    · simp only [hz, if_false] at hc
      exact ih (n / b) (Nat.digitChar (n % b) :: acc) hacc2 c hc

theorem toString_nat_data (n : Nat) :
    (toString n).data = Nat.toDigitsCore 10 (n + 1) n [] := rfl

/-- The decimal representation of a natural number is pure ASCII, so its
byte length equals its character length. -/
theorem bsize_toString_nat (n : Nat) : bsize (toString n) = (toString n).length := by
  rw [bsize_eq_utf8Len, strLength_data]
  refine utf8Len_of_ascii _ ?_
  rw [toString_nat_data]
  refine toDigitsCore_ascii 10 (n + 1) n [] ?_
  intro c hc
  cases hc

/-- For offsets below `10^10`, the zero-padded offset field is exactly 10
characters. -/
theorem zfill10_length (n : Nat) (h : n < 10 ^ 10) : (zfill10 n).length = 10 := by
  have hr : (toString n).length ≤ 10 := Nat.repr_length n 10 (by decide) h
  rw [zfill10]
  show (String.mk (List.replicate (10 - (toString n).length) '0') ++ toString n).length = 10
  rw [String.length_append]
  rw [show (String.mk (List.replicate (10 - (toString n).length) '0')).length =
      (List.replicate (10 - (toString n).length) '0').length from rfl]
  rw [List.length_replicate]
  omega

/-- The zero-padded offset field is pure ASCII. -/
theorem bsize_zfill10 (n : Nat) : bsize (zfill10 n) = (zfill10 n).length := by
  rw [zfill10]
  show bsize (String.mk (List.replicate (10 - (toString n).length) '0') ++ toString n) = _
  rw [bsize_append, bsize_toString_nat]
  rw [show (String.mk (List.replicate (10 - (toString n).length) '0') ++ toString n).length =
      (String.mk (List.replicate (10 - (toString n).length) '0')).length +
        (toString n).length from String.length_append _ _]
  have : bsize (String.mk (List.replicate (10 - (toString n).length) '0')) =
      (String.mk (List.replicate (10 - (toString n).length) '0')).length := by
    rw [bsize_eq_utf8Len, strLength_data]
    refine utf8Len_of_ascii _ ?_
    intro c hc
    have := List.eq_of_mem_replicate hc
    subst this
    decide
  omega

/-- For offsets below `10^10`, a cross-reference entry together with its
newline separator occupies exactly 20 bytes. -/
theorem bsize_xrefEntry (off : Nat) (h : off < 10 ^ 10) :
    bsize (xrefEntry off ++ "\n") = 20 := by
  rw [xrefEntry, bsize_append, bsize_append, bsize_zfill10, zfill10_length off h]
  rw [show bsize " 00000 n " = 9 from rfl, show bsize "\n" = 1 from rfl]

/-- The per-object byte offsets recorded by `build_pdf`'s serialization
loop (the entries of `offsets[1:]` in the source). -/
def pdfOffsets (lines : List String) : List Nat :=
  (serLoop 1 (bsize pdfHeader) (objectsFor lines)).1

/-- The byte offset at which the cross-reference section starts
(`xref_start` in the source). -/
def pdfXrefStart (lines : List String) : Nat :=
  (serLoop 1 (bsize pdfHeader) (objectsFor lines)).2.2

/-- `build_pdf` unfolded into header, body, cross-reference section and
trailer. -/
theorem build_pdf_eq (lines : List String) :
    build_pdf lines =
      pdfHeader ++ String.join (serLoop 1 (bsize pdfHeader) (objectsFor lines)).2.1 ++
        joinNl (("xref\n0 " ++ toString ((objectsFor lines).length + 1)) ::
          "0000000000 65535 f " :: (pdfOffsets lines).map xrefEntry) ++ "\n" ++
        ("trailer\n<< /Size " ++ toString ((objectsFor lines).length + 1) ++
          " /Root 1 0 R >>\nstartxref\n" ++ toString (pdfXrefStart lines) ++ "\n%%EOF\n") := rfl

/-- C1: the cross-reference invariant.  For every input line sequence the
offset table has one entry per object; entry i (for object number i+1) is
the `%010d`-formatted byte offset with generation `00000` and flag `n`
(exactly 10 digits and a 20-byte entry whenever the offset is below
`10^10`); the byte at that offset starts the serialization header
`"<i+1> 0 obj\n"` of object i+1 (byte offsets measured from the start of
the file); the sentinel free entry `0000000000 65535 f ` precedes the
entries; and the trailer names Size = objects+1, /Root = object 1, and
startxref = the byte offset of the cross-reference section. -/
theorem pdf_xref_invariant (lines : List String) :
    (pdfOffsets lines).length = (objectsFor lines).length ∧
    (∀ i, i < (objectsFor lines).length →
      ∃ off : Nat,
        (pdfOffsets lines)[i]? = some off ∧
        ((pdfOffsets lines).map xrefEntry)[i]? = some (zfill10 off ++ " 00000 n ") ∧
        (off < 10 ^ 10 → (zfill10 off).length = 10 ∧ bsize (xrefEntry off ++ "\n") = 20) ∧
        ∃ a b : String,
          build_pdf lines = a ++ (toString (i + 1) ++ " 0 obj\n") ++ b ∧ bsize a = off) ∧
    (∃ a : String,
      build_pdf lines =
        a ++ (joinNl (("xref\n0 " ++ toString ((objectsFor lines).length + 1)) ::
          "0000000000 65535 f " :: (pdfOffsets lines).map xrefEntry) ++ "\n" ++
          ("trailer\n<< /Size " ++ toString ((objectsFor lines).length + 1) ++
            " /Root 1 0 R >>\nstartxref\n" ++ toString (pdfXrefStart lines) ++ "\n%%EOF\n")) ∧
      bsize a = pdfXrefStart lines) := by
  refine ⟨serLoop_length (objectsFor lines) 1 (bsize pdfHeader), ?_, ?_⟩
  · intro i hi
    obtain ⟨off, content, a, b, h1, h2, h3, h4⟩ :=
      serLoop_locate (objectsFor lines) 1 (bsize pdfHeader) i hi
    rw [show (1 : Nat) + i = i + 1 from by omega] at h3
    refine ⟨off, h1, ?_, ?_, ?_⟩
    · rw [show ((pdfOffsets lines).map xrefEntry)[i]? =
          ((pdfOffsets lines)[i]?).map xrefEntry from List.getElem?_map xrefEntry _ i]
      rw [show (pdfOffsets lines)[i]? = some off from h1]
      rfl
    · intro hoff
      exact ⟨zfill10_length off hoff, bsize_xrefEntry off hoff⟩
    · refine ⟨pdfHeader ++ a,
        content ++ ("\nendobj\n" ++ (b ++
          (joinNl (("xref\n0 " ++ toString ((objectsFor lines).length + 1)) ::
            "0000000000 65535 f " :: (pdfOffsets lines).map xrefEntry) ++ ("\n" ++
          ("trailer\n<< /Size " ++ toString ((objectsFor lines).length + 1) ++
            " /Root 1 0 R >>\nstartxref\n" ++ toString (pdfXrefStart lines) ++
            "\n%%EOF\n"))))), ?_, ?_⟩
      · rw [build_pdf_eq, h3]
        simp only [String.append_assoc]
      · rw [bsize_append]
        exact h4
  · refine ⟨pdfHeader ++ String.join (serLoop 1 (bsize pdfHeader) (objectsFor lines)).2.1,
      ?_, ?_⟩
    · rw [build_pdf_eq]
      simp only [String.append_assoc]
    · rw [bsize_append]
      exact (serLoop_final (objectsFor lines) 1 (bsize pdfHeader)).symm

/-- Witness for C1 at the one-line input `["hi"]`, instantiated at object
position 0 (object number 1). -/
theorem pdf_xref_invariant_witness :
    0 < (objectsFor ["hi"]).length ∧
    ∃ off : Nat,
      (pdfOffsets ["hi"])[0]? = some off ∧
      ((pdfOffsets ["hi"]).map xrefEntry)[0]? = some (zfill10 off ++ " 00000 n ") ∧
      (off < 10 ^ 10 → (zfill10 off).length = 10 ∧ bsize (xrefEntry off ++ "\n") = 20) ∧
      ∃ a b : String,
        build_pdf ["hi"] = a ++ (toString (0 + 1) ++ " 0 obj\n") ++ b ∧ bsize a = off :=
  ⟨by decide, (pdf_xref_invariant ["hi"]).2.1 0 (by decide)⟩

/-! ## Theorems: the wrapping round-trip (C4)

The claim's re-joining operation: strip the shared indent from each
sub-line and join the sub-lines with single spaces (one per removed line
break).  `wsTokens` is the whitespace-delimited token sequence used to
state what wrapping preserves. -/

/-- Whether a chunk is a whitespace chunk (for the uniform nonempty chunks
produced by `splitChunks`, all characters agree). -/
def chunkIsWs (ch : List Char) : Bool := ch.all isWordsepWs

/-- The non-whitespace chunks of a chunk list, in order. -/
def wordChunks (cs : List (List Char)) : List (List Char) :=
  cs.filter (fun ch => !chunkIsWs ch)

/-- The whitespace-delimited tokens of a character list: its maximal
non-whitespace runs, in order. -/
def wsTokens (l : List Char) : List (List Char) :=
  wordChunks (splitChunks l)

/-- Join a list of strings with single spaces (the claim's re-joining
"across the single newlines"). -/
def spaceJoin : List String → String
  | [] => ""
  | [s] => s
  | s :: rest => s ++ " " ++ spaceJoin rest

/-- Drop the first `ind` characters of a string (stripping the shared
indent from a wrapped sub-line). -/
def dropIndent (ind : Nat) (s : String) : String := String.mk (s.data.drop ind)

/-- Counterexample to C4 as stated: wrapping `aaaa…a␣␣␣bbb` (88 a's, a
three-space run, then `bbb`) at the default width 90 breaks at the
whitespace run and `textwrap`'s `drop_whitespace` discards the run, so no
re-joining of the sub-lines (neither with single spaces nor by plain
concatenation) reconstructs the original trimmed text: the internal
whitespace run is dropped at the wrap point. -/
theorem wrap_roundtrip_counterexample :
    wrap_lines [String.mk (List.replicate 88 'a' ++ "   bbb".data)] 90 =
      [String.mk (List.replicate 88 'a'), "bbb"] ∧
    spaceJoin (wrap_lines [String.mk (List.replicate 88 'a' ++ "   bbb".data)] 90) ≠
      pyStrip (String.mk (List.replicate 88 'a' ++ "   bbb".data)) ∧
    String.join (wrap_lines [String.mk (List.replicate 88 'a' ++ "   bbb".data)] 90) ≠
      pyStrip (String.mk (List.replicate 88 'a' ++ "   bbb".data)) := by decide

/-- Well-formed chunk lists: every chunk is nonempty and uniform in
whitespace class, and adjacent chunks alternate classes (so the chunks are
the maximal runs of their concatenation). -/
def ChunksWF (cs : List (List Char)) : Prop :=
  (∀ ch ∈ cs, ch ≠ []) ∧
  (∀ ch ∈ cs, ch.all isWordsepWs = true ∨ ch.all (fun c => !isWordsepWs c) = true) ∧
  List.Chain' (fun a b => chunkIsWs a ≠ chunkIsWs b) cs

theorem splitChunks_flatten (l : List Char) : (splitChunks l).flatten = l := by
  induction l with
  | nil => rfl
  | cons c rest ih =>
    rw [splitChunks]
    cases h : splitChunks rest with
    | nil =>
      rw [h] at ih
      simp only [List.flatten_nil] at ih
      simp [← ih]
    | cons hd tl =>
      rw [h] at ih
      cases hd with
      | nil =>
        simpa using ih
      | cons d ds =>
        by_cases hc : isWordsepWs c = isWordsepWs d
        · simp only [hc, if_true]
          simp only [List.flatten_cons] at ih ⊢
          rw [← ih]
          rfl
        · simp only [hc, if_false]
          simp only [List.flatten_cons] at ih ⊢
          rw [← ih]
          rfl

theorem splitChunks_ne_nil (l : List Char) : ∀ ch ∈ splitChunks l, ch ≠ [] := by
  induction l with
  | nil => intro ch hch; cases hch
  | cons c rest ih =>
    intro ch hch
    rw [splitChunks] at hch
    cases h : splitChunks rest with
    | nil =>
      rw [h] at hch
      simp only [List.mem_singleton] at hch
      subst hch
      simp
    | cons hd tl =>
      rw [h] at hch
      cases hd with
      | nil =>
        exact absurd rfl (ih [] (h ▸ List.mem_cons_self [] tl))
      | cons d ds =>
        by_cases hc : isWordsepWs c = isWordsepWs d
        · simp only [hc, if_true] at hch
          rcases List.mem_cons.mp hch with h1 | h1
          · subst h1; simp
          · exact ih _ (h ▸ List.mem_cons_of_mem _ h1)
        · simp only [hc, if_false] at hch
          rcases List.mem_cons.mp hch with h1 | h1
          · subst h1; simp
          · exact ih _ (h ▸ h1)

theorem splitChunks_uniform (l : List Char) : ∀ ch ∈ splitChunks l,
    ch.all isWordsepWs = true ∨ ch.all (fun c => !isWordsepWs c) = true := by
  induction l with
  | nil => intro ch hch; cases hch
  | cons c rest ih =>
    intro ch hch
    rw [splitChunks] at hch
    cases h : splitChunks rest with
    | nil =>
      rw [h] at hch
      simp only [List.mem_singleton] at hch
      subst hch
      cases hws : isWordsepWs c
      · right; simp [hws]
      · left; simp [hws]
    | cons hd tl =>
      rw [h] at hch
      cases hd with
      | nil =>
        exact absurd rfl (splitChunks_ne_nil rest [] (h ▸ List.mem_cons_self [] tl))
      | cons d ds =>
        by_cases hc : isWordsepWs c = isWordsepWs d
        · simp only [hc, if_true] at hch
          rcases List.mem_cons.mp hch with h1 | h1
          · subst h1
            rcases ih (d :: ds) (h ▸ List.mem_cons_self _ tl) with hu | hu
            · left
              rw [List.all_cons, hu, Bool.and_true, hc]
              simp only [List.all_cons, Bool.and_eq_true] at hu
              exact hu.1
            · right
              rw [List.all_cons, hu, Bool.and_true, hc]
              simp only [List.all_cons, Bool.and_eq_true] at hu
              exact hu.1
          · exact ih _ (h ▸ List.mem_cons_of_mem _ h1)
        · simp only [hc, if_false] at hch
          rcases List.mem_cons.mp hch with h1 | h1
          · subst h1
            cases hws : isWordsepWs c
            · right; simp [hws]
            · left; simp [hws]
          · exact ih _ (h ▸ h1)

/-- For a uniform nonempty chunk, the chunk's class is its head's class. -/
theorem chunkIsWs_head (ch : List Char) (c : Char) (hh : ch.head? = some c)
    (hu : ch.all isWordsepWs = true ∨ ch.all (fun x => !isWordsepWs x) = true) :
    chunkIsWs ch = isWordsepWs c := by
  cases ch with
  | nil => cases hh
  | cons a t =>
    simp only [List.head?_cons, Option.some.injEq] at hh
    subst hh
    rcases hu with hu | hu
    · rw [chunkIsWs, hu]
      simp only [List.all_cons, Bool.and_eq_true] at hu
      exact hu.1.symm
    · have h1 : isWordsepWs a = false := by
        simp only [List.all_cons, Bool.and_eq_true] at hu
        simpa using hu.1
      rw [chunkIsWs, List.all_cons, h1, Bool.false_and]

theorem splitChunks_chain (l : List Char) :
    List.Chain' (fun a b => chunkIsWs a ≠ chunkIsWs b) (splitChunks l) := by
  induction l with
  | nil => simp [splitChunks]
  | cons c rest ih =>
    rw [splitChunks]
    cases h : splitChunks rest with
    | nil => simp
    | cons hd tl =>
      rw [h] at ih
      cases hd with
      | nil => exact absurd rfl (splitChunks_ne_nil rest [] (h ▸ List.mem_cons_self [] tl))
      | cons d ds =>
        have hcls : chunkIsWs (d :: ds) = isWordsepWs d :=
          chunkIsWs_head (d :: ds) d rfl
            (splitChunks_uniform rest (d :: ds) (h ▸ List.mem_cons_self _ tl))
        by_cases hc : isWordsepWs c = isWordsepWs d
        · simp only [hc, if_true]
          have hsame : chunkIsWs (c :: d :: ds) = chunkIsWs (d :: ds) := by
            rw [chunkIsWs, chunkIsWs, List.all_cons, hc]
            cases hdd : (d :: ds).all isWordsepWs with
            | false => simp
            | true =>
              have hd1 : isWordsepWs d = true := by
                simp only [List.all_cons, Bool.and_eq_true] at hdd
                exact hdd.1
              rw [hd1, Bool.true_and]
          cases tl with
          | nil => simp
          | cons t2 tl2 =>
            rw [List.chain'_cons] at ih ⊢
            exact ⟨hsame ▸ ih.1, ih.2⟩
        · simp only [hc, if_false]
          rw [List.chain'_cons]
          refine ⟨?_, ih⟩
          rw [show chunkIsWs [c] = isWordsepWs c from by simp [chunkIsWs], hcls]
          exact hc

/-- `splitChunks` produces a well-formed chunk list. -/
theorem splitChunks_wf (l : List Char) : ChunksWF (splitChunks l) :=
  ⟨splitChunks_ne_nil l, splitChunks_uniform l, splitChunks_chain l⟩

/-- The first chunk of a nonempty list starts with the list's first
character. -/
theorem splitChunks_head (c : Char) (r : List Char) :
    ∃ ch tl, splitChunks (c :: r) = ch :: tl ∧ ch.head? = some c := by
  have hf := splitChunks_flatten (c :: r)
  cases h : splitChunks (c :: r) with
  | nil =>
    rw [h] at hf
    simp at hf
  | cons ch tl =>
    refine ⟨ch, tl, rfl, ?_⟩
    rw [h] at hf
    have hne := splitChunks_ne_nil (c :: r) ch (h ▸ List.mem_cons_self _ _)
    cases ch with
    | nil => exact absurd rfl hne
    | cons a t =>
      simp only [List.flatten_cons, List.cons_append] at hf
      injection hf with h1 h2
      simp [h1]

/-- Prepending one maximal run to a list whose first chunk has the other
class prepends it as one chunk. -/
theorem splitChunks_run (ch : List Char) : ∀ y : List Char, ch ≠ [] →
    (ch.all isWordsepWs = true ∨ ch.all (fun c => !isWordsepWs c) = true) →
    (∀ ch2, (splitChunks y).head? = some ch2 → chunkIsWs ch2 ≠ chunkIsWs ch) →
    splitChunks (ch ++ y) = ch :: splitChunks y := by
  induction ch with
  | nil => intro y hne; exact absurd rfl hne
  | cons a t ihc =>
    intro y _ hu hy
    cases t with
    | nil =>
      show splitChunks (a :: y) = [a] :: splitChunks y
      rw [splitChunks]
      cases h : splitChunks y with
      | nil => rfl
      | cons hd tl =>
        cases hd with
        | nil => exact absurd rfl (splitChunks_ne_nil y [] (h ▸ List.mem_cons_self [] tl))
        | cons d ds =>
          have hdiff := hy (d :: ds) (by rw [h]; rfl)
          have hcls : chunkIsWs (d :: ds) = isWordsepWs d :=
            chunkIsWs_head (d :: ds) d rfl
              (splitChunks_uniform y (d :: ds) (h ▸ List.mem_cons_self _ tl))
          have hca : chunkIsWs [a] = isWordsepWs a := by simp [chunkIsWs]
          have hne2 : ¬ (isWordsepWs a = isWordsepWs d) := by
            intro hh
            exact hdiff (by rw [hcls, hca, hh])
          simp only [show (isWordsepWs a = isWordsepWs d) = False from eq_false hne2, if_false]
    | cons b t2 =>
      have hab : isWordsepWs a = isWordsepWs b := by
        rcases hu with hu | hu
        · simp only [List.all_cons, Bool.and_eq_true] at hu
          rw [hu.1, hu.2.1]
        · simp only [List.all_cons, Bool.and_eq_true] at hu
          have h1 : isWordsepWs a = false := by simpa using hu.1
          have h2 : isWordsepWs b = false := by simpa using hu.2.1
          rw [h1, h2]
      have hu2 : (b :: t2).all isWordsepWs = true ∨
          (b :: t2).all (fun c => !isWordsepWs c) = true := by
        rcases hu with hu | hu
        · left
          simp only [List.all_cons, Bool.and_eq_true] at hu ⊢
          exact hu.2
        · right
          simp only [List.all_cons, Bool.and_eq_true] at hu ⊢
          exact hu.2
      have hsame : chunkIsWs (b :: t2) = chunkIsWs (a :: b :: t2) := by
        have h1 := chunkIsWs_head (b :: t2) b rfl hu2
        have h2 := chunkIsWs_head (a :: b :: t2) a rfl hu
        rw [h1, h2, hab]
      have hy2 : ∀ ch2, (splitChunks y).head? = some ch2 →
          chunkIsWs ch2 ≠ chunkIsWs (b :: t2) := by
        intro ch2 hch2
        rw [hsame]
        exact hy ch2 hch2
      have ih2 := ihc y (by simp) hu2 hy2
      show splitChunks (a :: ((b :: t2) ++ y)) = (a :: b :: t2) :: splitChunks y
      rw [splitChunks, ih2]
      simp only [hab, if_true]

/-- On well-formed chunk lists, `splitChunks` inverts `flatten`: the chunks
are exactly the maximal runs of their concatenation. -/
theorem splitChunks_flatten_id (cs : List (List Char)) (hwf : ChunksWF cs) :
    splitChunks cs.flatten = cs := by
  induction cs with
  | nil => rfl
  | cons ch tl ih =>
    obtain ⟨hne, hu, hchain⟩ := hwf
    have hwf2 : ChunksWF tl :=
      ⟨fun c hc => hne c (List.mem_cons_of_mem _ hc),
       fun c hc => hu c (List.mem_cons_of_mem _ hc),
       (List.chain'_cons'.mp hchain).2⟩
    rw [List.flatten_cons]
    rw [splitChunks_run ch tl.flatten (hne ch (List.mem_cons_self _ _))
      (hu ch (List.mem_cons_self _ _)) ?_]
    · rw [ih hwf2]
    · intro ch2 hch2
      rw [ih hwf2] at hch2
      have hrel := (List.chain'_cons'.mp hchain).1 ch2 hch2
      exact fun hh => hrel hh.symm

/-- The chunk lists of wrapped line bodies, interleaved with the
single-space whitespace chunks the re-joining inserts. -/
def joinChunksSp : List (List (List Char)) → List (List Char)
  | [] => []
  | [bc] => bc
  | bc :: rest => bc ++ ([' '] :: joinChunksSp rest)

/-- The chunk-list shape of one wrapped line body: well-formed, nonempty,
and starting and ending with a word chunk. -/
def BodyWF (bc : List (List Char)) : Prop :=
  ChunksWF bc ∧ bc ≠ [] ∧
  (∀ ch, bc.head? = some ch → chunkIsWs ch = false) ∧
  (∀ ch, bc.getLast? = some ch → chunkIsWs ch = false)

theorem joinChunksSp_flatten (bcs : List (List (List Char))) :
    (joinChunksSp bcs).flatten =
      (spaceJoin (bcs.map (fun bc => String.mk bc.flatten))).data := by
  induction bcs with
  | nil => rfl
  | cons bc rest ih =>
    cases rest with
    | nil => rfl
    | cons bc2 rest2 =>
      show (bc ++ ([' '] :: joinChunksSp (bc2 :: rest2))).flatten =
        (String.mk bc.flatten ++ " " ++
          spaceJoin ((bc2 :: rest2).map (fun bc => String.mk bc.flatten))).data
      rw [List.flatten_append, List.flatten_cons]
      rw [ih]
      simp [String.data_append]

theorem joinChunksSp_head (bc : List (List Char)) (rest : List (List (List Char)))
    (hne : bc ≠ []) : (joinChunksSp (bc :: rest)).head? = bc.head? := by
  cases rest with
  | nil => rfl
  | cons bc2 rest2 =>
    show (bc ++ ([' '] :: joinChunksSp (bc2 :: rest2))).head? = bc.head?
    cases bc with
    | nil => exact absurd rfl hne
    | cons ch tl => rfl

theorem joinChunksSp_wf (bcs : List (List (List Char))) (h : ∀ bc ∈ bcs, BodyWF bc) :
    ChunksWF (joinChunksSp bcs) := by
  induction bcs with
  | nil => exact ⟨fun c hc => absurd hc (List.not_mem_nil c), fun c hc =>
      absurd hc (List.not_mem_nil c), List.chain'_nil⟩
  | cons bc rest ih =>
    cases rest with
    | nil => exact (h bc (List.mem_cons_self _ _)).1
    | cons bc2 rest2 =>
      obtain ⟨⟨hne1, hu1, hch1⟩, hbne, hhd, hlast⟩ := h bc (List.mem_cons_self _ _)
      have hJ := ih (fun b hb => h b (List.mem_cons_of_mem _ hb))
      obtain ⟨hne2, hu2, hch2⟩ := hJ
      have hb2 := h bc2 (List.mem_cons_of_mem _ (List.mem_cons_self _ _))
      show ChunksWF (bc ++ ([' '] :: joinChunksSp (bc2 :: rest2)))
      refine ⟨?_, ?_, ?_⟩
      · intro ch hch
        rcases List.mem_append.mp hch with h1 | h1
        · exact hne1 ch h1
        · rcases List.mem_cons.mp h1 with h2 | h2
          · subst h2; simp
          · exact hne2 ch h2
      · intro ch hch
        rcases List.mem_append.mp hch with h1 | h1
        · exact hu1 ch h1
        · rcases List.mem_cons.mp h1 with h2 | h2
          · subst h2; left; decide
          · exact hu2 ch h2
      · rw [List.chain'_append]
        refine ⟨hch1, ?_, ?_⟩
        · rw [List.chain'_cons']
          refine ⟨?_, hch2⟩
          intro ch2 hch2h
          rw [joinChunksSp_head bc2 rest2 hb2.2.1] at hch2h
          have hw2 := hb2.2.2.1 ch2 hch2h
          rw [show chunkIsWs [' '] = true from by decide, hw2]
          simp
        · intro x hx y hy
          simp only [List.head?_cons, Option.mem_def, Option.some.injEq] at hy
          subst hy
          have hwx := hlast x (Option.mem_def.mp hx)
          rw [hwx, show chunkIsWs [' '] = true from by decide]
          simp

theorem joinChunksSp_words (bcs : List (List (List Char))) :
    wordChunks (joinChunksSp bcs) = (bcs.map wordChunks).flatten := by
  induction bcs with
  | nil => rfl
  | cons bc rest ih =>
    cases rest with
    | nil =>
      show wordChunks bc = wordChunks bc ++ [].flatten
      simp
    | cons bc2 rest2 =>
      show wordChunks (bc ++ ([' '] :: joinChunksSp (bc2 :: rest2))) = _
      rw [wordChunks, List.filter_append]
      rw [show List.filter (fun ch => !chunkIsWs ch) ([' '] :: joinChunksSp (bc2 :: rest2)) =
        List.filter (fun ch => !chunkIsWs ch) (joinChunksSp (bc2 :: rest2)) from by
          rw [List.filter_cons]
          simp [show chunkIsWs [' '] = true from by decide]]
      rw [show List.filter (fun ch => !chunkIsWs ch) (joinChunksSp (bc2 :: rest2)) =
        wordChunks (joinChunksSp (bc2 :: rest2)) from rfl]
      rw [ih]
      simp [wordChunks]

/-- Tokens of the space-joined line bodies are the word chunks of the
bodies, concatenated in order. -/
theorem tokens_of_joined (bcs : List (List (List Char))) (h : ∀ bc ∈ bcs, BodyWF bc) :
    wsTokens (spaceJoin (bcs.map (fun bc => String.mk bc.flatten))).data =
      (bcs.map wordChunks).flatten := by
  rw [wsTokens, ← joinChunksSp_flatten, splitChunks_flatten_id _ (joinChunksSp_wf bcs h),
    joinChunksSp_words]

theorem greedyFill_append (wAvail : Int) : ∀ (cs : List (List Char)) (curLen : Nat),
    (greedyFill wAvail curLen cs).1 ++ (greedyFill wAvail curLen cs).2 = cs := by
  intro cs
  induction cs with
  | nil => intro curLen; rfl
  | cons ch rest ih =>
    intro curLen
    rw [greedyFill]
    by_cases hc : (curLen : Int) + ch.length ≤ wAvail
    · rw [if_pos hc]
      show ch :: ((greedyFill wAvail (curLen + ch.length) rest).1 ++
        (greedyFill wAvail (curLen + ch.length) rest).2) = ch :: rest
      rw [ih]
    · rw [if_neg hc]
      rfl

theorem all_congr_of (l : List Char) (p q : Char → Bool) (h : ∀ c ∈ l, p c = q c) :
    l.all p = l.all q := by
  induction l with
  | nil => rfl
  | cons c rest ih =>
    rw [List.all_cons, List.all_cons, h c (List.mem_cons_self c rest),
      ih (fun d hd => h d (List.mem_cons_of_mem c hd))]

/-- The trailing-whitespace drop of `_wrap_chunks` turns a well-formed
word-headed line into a word-headed, word-ended line with the same word
chunks. -/
theorem trailing_drop (cur : List (List Char))
    (hwf : ChunksWF cur)
    (hcls : ∀ ch ∈ cur, ∀ c ∈ ch, pyIsSpace c = isWordsepWs c)
    (hhd : ∀ ch, cur.head? = some ch → chunkIsWs ch = false)
    (hne : cur ≠ []) :
    BodyWF (match cur.getLast? with
      | some lastCh => if lastCh.all pyIsSpace then cur.dropLast else cur
      | none => cur) ∧
    wordChunks (match cur.getLast? with
      | some lastCh => if lastCh.all pyIsSpace then cur.dropLast else cur
      | none => cur) = wordChunks cur := by
  obtain ⟨hne0, hu0, hch0⟩ := hwf
  rcases List.eq_nil_or_concat cur with h | ⟨init, last, rfl⟩
  · exact absurd h hne
  · rw [List.concat_eq_append] at hcls hhd hne hne0 hu0 hch0 ⊢
    rw [show (match (init ++ [last]).getLast? with
        | some lastCh => if lastCh.all pyIsSpace then (init ++ [last]).dropLast
          else init ++ [last]
        | none => init ++ [last]) =
        (if last.all pyIsSpace then (init ++ [last]).dropLast else init ++ [last]) from by
      rw [List.getLast?_concat]]
    have hmemlast : last ∈ init ++ [last] := List.mem_append_right _ (List.mem_singleton.mpr rfl)
    have hlc : last.all pyIsSpace = chunkIsWs last :=
      all_congr_of last pyIsSpace isWordsepWs (hcls last hmemlast)
    cases hlast : last.all pyIsSpace with
    | false =>
      rw [if_neg Bool.false_ne_true]
      refine ⟨⟨⟨hne0, hu0, hch0⟩, hne, hhd, ?_⟩, rfl⟩
      intro ch hch
      rw [List.getLast?_concat] at hch
      cases hch
      rw [← hlc, hlast]
    | true =>
      rw [if_pos rfl]
      rw [List.dropLast_concat]
      have hwlast : chunkIsWs last = true := by rw [← hlc, hlast]
      cases init with
      | nil =>
        have := hhd last rfl
        rw [this] at hwlast
        cases hwlast
      | cons i0 irest =>
        have hsplit := List.chain'_append.mp hch0
        refine ⟨⟨⟨?_, ?_, hsplit.1⟩, by simp, ?_, ?_⟩, ?_⟩
        · intro ch hch
          exact hne0 ch (List.mem_append_left _ hch)
        · intro ch hch
          exact hu0 ch (List.mem_append_left _ hch)
        · intro ch hch
          refine hhd ch ?_
          rw [show ((i0 :: irest) ++ [last]).head? = (i0 :: irest).head? from rfl]
          exact hch
        · intro ch hch
          have hrel := hsplit.2.2 ch (by rw [Option.mem_def]; exact hch) last (by simp)
          rw [hwlast] at hrel
          simpa using hrel
        · rw [wordChunks, wordChunks, List.filter_append]
          rw [show List.filter (fun ch => !chunkIsWs ch) [last] = [] from by
            rw [List.filter_cons]
            simp [hwlast]]
          rw [List.append_nil]

/-- One reachable iteration of the wrap loop on a word-headed, well-formed
chunk list whose chunks all fit the available width: the long-word path is
not taken, the emitted line is a word-headed word-ended body with the same
word chunks as the consumed prefix, and the remainder is a shorter
well-formed suffix. -/
theorem wrapIterCore_spec (wAvail : Int)
    (cs1 : List (List Char))
    (hwf : ChunksWF cs1)
    (hfit : ∀ ch ∈ cs1, (ch.length : Int) ≤ wAvail)
    (hcls : ∀ ch ∈ cs1, ∀ c ∈ ch, pyIsSpace c = isWordsepWs c)
    (hhd : ∀ ch, cs1.head? = some ch → chunkIsWs ch = false)
    (hne : cs1 ≠ []) :
    ∃ cur3 frest,
      wrapIterCore wAvail cs1 = (cur3, frest) ∧
      BodyWF cur3 ∧
      wordChunks cur3 ++ wordChunks frest = wordChunks cs1 ∧
      ChunksWF frest ∧
      (∀ ch ∈ frest, (ch.length : Int) ≤ wAvail) ∧
      (∀ ch ∈ frest, ∀ c ∈ ch, pyIsSpace c = isWordsepWs c) ∧
      frest.length < cs1.length := by
  cases cs1 with
  | nil => exact absurd rfl hne
  | cons wd rest1 =>
    have hwd : chunkIsWs wd = false := hhd wd rfl
    have h0 : ((0 : Nat) : Int) + wd.length ≤ wAvail := by
      have := hfit wd (List.mem_cons_self _ _)
      omega
    have hg : greedyFill wAvail 0 (wd :: rest1) =
        (wd :: (greedyFill wAvail (0 + wd.length) rest1).1,
          (greedyFill wAvail (0 + wd.length) rest1).2) := by
      rw [greedyFill, if_pos h0]
    have hK : (greedyFill wAvail (0 + wd.length) rest1).1 ++
        (greedyFill wAvail (0 + wd.length) rest1).2 = rest1 :=
      greedyFill_append wAvail rest1 (0 + wd.length)
    have hcurcs : (wd :: (greedyFill wAvail (0 + wd.length) rest1).1) ++
        (greedyFill wAvail (0 + wd.length) rest1).2 = wd :: rest1 := by
      rw [List.cons_append, hK]
    have hmemfr : ∀ ch ∈ (greedyFill wAvail (0 + wd.length) rest1).2, ch ∈ wd :: rest1 := by
      intro ch hch
      rw [← hcurcs]
      exact List.mem_append_right _ hch
    have hmemcur : ∀ ch ∈ wd :: (greedyFill wAvail (0 + wd.length) rest1).1,
        ch ∈ wd :: rest1 := by
      intro ch hch
      rw [← hcurcs]
      exact List.mem_append_left _ hch
    have hchainsplit := List.chain'_append.mp (hcurcs ▸ hwf.2.2)
    have hcore : wrapIterCore wAvail (wd :: rest1) =
        (match (wd :: (greedyFill wAvail (0 + wd.length) rest1).1).getLast? with
          | some lastCh => if lastCh.all pyIsSpace then
              (wd :: (greedyFill wAvail (0 + wd.length) rest1).1).dropLast
            else wd :: (greedyFill wAvail (0 + wd.length) rest1).1
          | none => wd :: (greedyFill wAvail (0 + wd.length) rest1).1,
         (greedyFill wAvail (0 + wd.length) rest1).2) := by
      rw [wrapIterCore, hg]
      cases hg2 : (greedyFill wAvail (0 + wd.length) rest1).2 with
      | nil => rfl
      | cons ch2 rs =>
        have hle : ¬ ((ch2.length : Int) > wAvail) := by
          have := hfit ch2 (hmemfr ch2 (by rw [hg2]; exact List.mem_cons_self _ _))
          omega
        simp only [if_neg hle]
    have hwfcur : ChunksWF (wd :: (greedyFill wAvail (0 + wd.length) rest1).1) :=
      ⟨fun ch hch => hwf.1 ch (hmemcur ch hch),
       fun ch hch => hwf.2.1 ch (hmemcur ch hch),
       hchainsplit.1⟩
    have hclscur : ∀ ch ∈ wd :: (greedyFill wAvail (0 + wd.length) rest1).1,
        ∀ c ∈ ch, pyIsSpace c = isWordsepWs c :=
      fun ch hch => hcls ch (hmemcur ch hch)
    have hhdcur : ∀ ch, (wd :: (greedyFill wAvail (0 + wd.length) rest1).1).head? = some ch →
        chunkIsWs ch = false := by
      intro ch hch
      simp only [List.head?_cons, Option.some.injEq] at hch
      subst hch
      exact hwd
    obtain ⟨hbw, hwords⟩ := trailing_drop (wd :: (greedyFill wAvail (0 + wd.length) rest1).1)
      hwfcur hclscur hhdcur (by simp)
    refine ⟨_, _, hcore, hbw, ?_, ?_, ?_, ?_, ?_⟩
    · rw [hwords]
      rw [show wordChunks (wd :: (greedyFill wAvail (0 + wd.length) rest1).1) ++
          wordChunks (greedyFill wAvail (0 + wd.length) rest1).2 =
          wordChunks ((wd :: (greedyFill wAvail (0 + wd.length) rest1).1) ++
            (greedyFill wAvail (0 + wd.length) rest1).2) from by
        simp only [wordChunks, List.cons_append, List.filter_cons, List.filter_append]
        by_cases hp : (!chunkIsWs wd) = true
        · simp [hp]
        · simp [hp]]
      rw [hcurcs]
    · exact ⟨fun ch hch => hwf.1 ch (hmemfr ch hch),
        fun ch hch => hwf.2.1 ch (hmemfr ch hch),
        hchainsplit.2.1⟩
    · exact fun ch hch => hfit ch (hmemfr ch hch)
    · exact fun ch hch => hcls ch (hmemfr ch hch)
    · have h := congrArg List.length hcurcs
      simp only [List.length_append, List.length_cons] at h
      simp only [List.length_cons]
      omega

theorem isEmpty_false_of_ne_nil {α : Type} (l : List α) (h : l ≠ []) :
    l.isEmpty = false := by
  cases l with
  | nil => exact absurd rfl h
  | cons a t => rfl

theorem wrapChunksGo_nil (width : Nat) (ii si : List Char) (fuel : Nat) (first : Bool) :
    wrapChunksGo width ii si fuel first [] = [] := by
  cases fuel with
  | zero => rfl
  | succ f => rfl

theorem wrapChunksGo_succ_true (width : Nat) (ii si : List Char) (fuel : Nat)
    (ch : List Char) (rest : List (List Char)) :
    wrapChunksGo width ii si (fuel + 1) true (ch :: rest) =
      (if (wrapIterCore ((width : Int) - ii.length) (ch :: rest)).1.isEmpty then
        wrapChunksGo width ii si fuel true
          (wrapIterCore ((width : Int) - ii.length) (ch :: rest)).2
      else (ii ++ (wrapIterCore ((width : Int) - ii.length) (ch :: rest)).1.flatten) ::
        wrapChunksGo width ii si fuel false
          (wrapIterCore ((width : Int) - ii.length) (ch :: rest)).2) := rfl

theorem wrapChunksGo_succ_false (width : Nat) (ii si : List Char) (fuel : Nat)
    (ch : List Char) (rest : List (List Char)) :
    wrapChunksGo width ii si (fuel + 1) false (ch :: rest) =
      (if (wrapIterCore ((width : Int) - si.length)
            (if ch.all pyIsSpace then rest else ch :: rest)).1.isEmpty then
        wrapChunksGo width ii si fuel false
          (wrapIterCore ((width : Int) - si.length)
            (if ch.all pyIsSpace then rest else ch :: rest)).2
      else (si ++ (wrapIterCore ((width : Int) - si.length)
            (if ch.all pyIsSpace then rest else ch :: rest)).1.flatten) ::
        wrapChunksGo width ii si fuel false
          (wrapIterCore ((width : Int) - si.length)
            (if ch.all pyIsSpace then rest else ch :: rest)).2) := rfl

/-- The wrap loop on a well-formed chunk list whose chunks all fit the
available width emits lines of the form `indent ++ body`, where each body
is a word-headed word-ended well-formed chunk sequence, and the word
chunks of all emitted bodies, in order, are exactly the word chunks of the
input. -/
theorem wrapChunksGo_spec (width : Nat) (ind : List Char) :
    ∀ fuel : Nat, ∀ cs : List (List Char), ∀ first : Bool,
    ChunksWF cs →
    (∀ ch ∈ cs, (ch.length : Int) ≤ (width : Int) - ind.length) →
    (∀ ch ∈ cs, ∀ c ∈ ch, pyIsSpace c = isWordsepWs c) →
    (first = true → ∀ ch, cs.head? = some ch → chunkIsWs ch = false) →
    cs.length ≤ fuel →
    ∃ bcs : List (List (List Char)),
      wrapChunksGo width ind ind fuel first cs = bcs.map (fun bc => ind ++ bc.flatten) ∧
      (∀ bc ∈ bcs, BodyWF bc) ∧
      (bcs.map wordChunks).flatten = wordChunks cs ∧
      (first = true → cs ≠ [] → bcs ≠ []) := by
  intro fuel
  induction fuel with
  | zero =>
    intro cs first _ _ _ _ hlen
    have hcs : cs = [] := List.length_eq_zero.mp (Nat.le_zero.mp hlen)
    subst hcs
    exact ⟨[], wrapChunksGo_nil width ind ind 0 first,
      (by intro bc hbc; cases hbc), rfl, fun _ hc => absurd rfl hc⟩
  | succ fuel ih =>
    intro cs first hwf hfit hcls hstart hlen
    cases cs with
    | nil =>
      exact ⟨[], wrapChunksGo_nil width ind ind (fuel + 1) first,
        (by intro bc hbc; cases hbc), rfl, fun _ hc => absurd rfl hc⟩
    | cons ch rest =>
      cases first with
      | true =>
        obtain ⟨cur3, frest, hc1, hc2, hc3, hc4, hc5, hc6, hc7⟩ :=
          wrapIterCore_spec ((width : Int) - ind.length) (ch :: rest) hwf hfit hcls
            (hstart rfl) (by simp)
        obtain ⟨bcs2, hb1, hb2, hb3, _⟩ := ih frest false hc4 hc5 hc6
          (fun hff => absurd hff (by decide))
          (by simp only [List.length_cons] at hlen hc7 ⊢; omega)
        refine ⟨cur3 :: bcs2, ?_, ?_, ?_, fun _ _ => by simp⟩
        · rw [wrapChunksGo_succ_true, hc1]
          rw [show ((cur3, frest).1 : List (List Char)) = cur3 from rfl,
            show ((cur3, frest).2 : List (List Char)) = frest from rfl]
          rw [isEmpty_false_of_ne_nil cur3 hc2.2.1]
          rw [if_neg Bool.false_ne_true]
          rw [hb1]
          rfl
        · intro bc hbc
          rcases List.mem_cons.mp hbc with h1 | h1
          · subst h1; exact hc2
          · exact hb2 bc h1
        · simp only [List.map_cons, List.flatten_cons, hb3]
          exact hc3
      | false =>
        by_cases hdrop : ch.all pyIsSpace = true
        · have hchw : chunkIsWs ch = true := by
            rw [chunkIsWs,
              all_congr_of ch isWordsepWs pyIsSpace
                (fun c hc => (hcls ch (List.mem_cons_self _ _) c hc).symm), hdrop]
          cases rest with
          | nil =>
            refine ⟨[], ?_, (by intro bc hbc; cases hbc), ?_,
              fun hff _ => absurd hff (by decide)⟩
            · rw [wrapChunksGo_succ_false, if_pos hdrop]
              rw [show wrapIterCore ((width : Int) - ind.length) [] = ([], []) from rfl]
              rw [show (([], []) : List (List Char) × List (List Char)).1.isEmpty = true
                from rfl]
              rw [if_pos rfl]
              exact wrapChunksGo_nil width ind ind fuel false
            · simp [wordChunks, List.filter_cons, hchw]
          | cons ch2 rest2 =>
            have hsplitchain := List.chain'_cons.mp hwf.2.2
            have hch2w : chunkIsWs ch2 = false := by
              have hnech := hsplitchain.1
              rw [hchw] at hnech
              cases h2 : chunkIsWs ch2 with
              | false => rfl
              | true => exact absurd h2.symm hnech
            have hwf2 : ChunksWF (ch2 :: rest2) :=
              ⟨fun c hc => hwf.1 c (List.mem_cons_of_mem _ hc),
               fun c hc => hwf.2.1 c (List.mem_cons_of_mem _ hc),
               hsplitchain.2⟩
            obtain ⟨cur3, frest, hc1, hc2, hc3, hc4, hc5, hc6, hc7⟩ :=
              wrapIterCore_spec ((width : Int) - ind.length) (ch2 :: rest2) hwf2
                (fun c hc => hfit c (List.mem_cons_of_mem _ hc))
                (fun c hc => hcls c (List.mem_cons_of_mem _ hc))
                (by intro c2 h2
                    simp only [List.head?_cons, Option.some.injEq] at h2
                    subst h2
                    exact hch2w)
                (by simp)
            obtain ⟨bcs2, hb1, hb2, hb3, _⟩ := ih frest false hc4 hc5 hc6
              (fun hff => absurd hff (by decide))
              (by simp only [List.length_cons] at hlen hc7 ⊢; omega)
            refine ⟨cur3 :: bcs2, ?_, ?_, ?_, fun hff _ => absurd hff (by decide)⟩
            · rw [wrapChunksGo_succ_false, if_pos hdrop, hc1]
              rw [show ((cur3, frest).1 : List (List Char)) = cur3 from rfl,
                show ((cur3, frest).2 : List (List Char)) = frest from rfl]
              rw [isEmpty_false_of_ne_nil cur3 hc2.2.1]
              rw [if_neg Bool.false_ne_true]
              rw [hb1]
              rfl
            · intro bc hbc
              rcases List.mem_cons.mp hbc with h1 | h1
              · subst h1; exact hc2
              · exact hb2 bc h1
            · simp only [List.map_cons, List.flatten_cons, hb3]
              rw [hc3]
              simp [wordChunks, List.filter_cons, hchw]
        · have hall : ch.all pyIsSpace = false := by
            cases h : ch.all pyIsSpace with
            | false => rfl
            | true => exact absurd h hdrop
          have hchw : chunkIsWs ch = false := by
            rw [chunkIsWs,
              all_congr_of ch isWordsepWs pyIsSpace
                (fun c hc => (hcls ch (List.mem_cons_self _ _) c hc).symm), hall]
          obtain ⟨cur3, frest, hc1, hc2, hc3, hc4, hc5, hc6, hc7⟩ :=
            wrapIterCore_spec ((width : Int) - ind.length) (ch :: rest) hwf hfit hcls
              (by intro c2 h2
                  simp only [List.head?_cons, Option.some.injEq] at h2
                  subst h2
                  exact hchw)
              (by simp)
          obtain ⟨bcs2, hb1, hb2, hb3, _⟩ := ih frest false hc4 hc5 hc6
            (fun hff => absurd hff (by decide))
            (by simp only [List.length_cons] at hlen hc7 ⊢; omega)
          refine ⟨cur3 :: bcs2, ?_, ?_, ?_, fun hff _ => absurd hff (by decide)⟩
          · rw [wrapChunksGo_succ_false, if_neg hdrop, hc1]
            rw [show ((cur3, frest).1 : List (List Char)) = cur3 from rfl,
              show ((cur3, frest).2 : List (List Char)) = frest from rfl]
            rw [isEmpty_false_of_ne_nil cur3 hc2.2.1]
            rw [if_neg Bool.false_ne_true]
            rw [hb1]
            rfl
          · intro bc hbc
            rcases List.mem_cons.mp hbc with h1 | h1
            · subst h1; exact hc2
            · exact hb2 bc h1
          · simp only [List.map_cons, List.flatten_cons, hb3]
            exact hc3

theorem expandTabsGo_id (l : List Char) (h : ∀ c ∈ l, ¬ c = '\t') :
    ∀ col : Nat, expandTabsGo col l = l := by
  induction l with
  | nil => intro col; rfl
  | cons c rest ih =>
    intro col
    rw [expandTabsGo, if_neg (h c (List.mem_cons_self _ _))]
    by_cases hnr : c = '\n' ∨ c = '\r'
    · rw [if_pos hnr, ih (fun d hd => h d (List.mem_cons_of_mem _ hd)) 0]
    · rw [if_neg hnr, ih (fun d hd => h d (List.mem_cons_of_mem _ hd)) (col + 1)]

/-- `textwrap`'s six whitespace characters are all Python whitespace. -/
theorem wordsepWs_pyIsSpace (c : Char) (h : isWordsepWs c = true) : pyIsSpace c = true := by
  rw [isWordsepWs] at h
  simp only [decide_eq_true_eq] at h
  rcases h with h | h | h | h | h | h <;> subst h <;> decide

theorem dropWhile_head_false (p : Char → Bool) : ∀ (l : List Char) (c : Char) (r : List Char),
    l.dropWhile p = c :: r → p c = false := by
  intro l
  induction l with
  | nil => intro c r h; cases h
  | cons a t ih =>
    intro c r h
    rw [List.dropWhile_cons] at h
    by_cases ha : p a = true
    · rw [if_pos ha] at h
      exact ih c r h
    · rw [if_neg ha] at h
      injection h with h1 h2
      subst h1
      cases hpa : p a with
      | false => rfl
      | true => exact absurd hpa ha

/-- Right-stripping preserves the head of a list (when the result is
nonempty). -/
theorem rstrip_head (p : Char → Bool) (y : List Char) (c : Char) (r : List Char)
    (h : (y.reverse.dropWhile p).reverse = c :: r) : ∃ r2, y = c :: r2 := by
  obtain ⟨t, ht⟩ := List.dropWhile_suffix (l := y.reverse) p
  have h2 := congrArg List.reverse ht
  rw [List.reverse_append, List.reverse_reverse, h] at h2
  exact ⟨r ++ t.reverse, by rw [← h2]; rfl⟩

theorem pyStrip_subset (s : String) : ∀ c ∈ (pyStrip s).data, c ∈ s.data := by
  intro c hc
  have h1 : c ∈ ((s.data.dropWhile pyIsSpace).reverse.dropWhile pyIsSpace).reverse := hc
  rw [List.mem_reverse] at h1
  have h2 := (List.dropWhile_suffix pyIsSpace).subset h1
  rw [List.mem_reverse] at h2
  exact (List.dropWhile_suffix pyIsSpace).subset h2

/-- The first character of a stripped string is not whitespace. -/
theorem pyStrip_head_not_space (s : String) (c : Char) (r : List Char)
    (h : (pyStrip s).data = c :: r) : pyIsSpace c = false := by
  have h1 : ((s.data.dropWhile pyIsSpace).reverse.dropWhile pyIsSpace).reverse = c :: r := h
  obtain ⟨r2, hr2⟩ := rstrip_head pyIsSpace (s.data.dropWhile pyIsSpace) c r h1
  exact dropWhile_head_false pyIsSpace s.data c r2 hr2

/-- C4 (amended): for a non-blank line whose whitespace characters are all
plain spaces, containing no hyphens (the unmodelled `wordsep` hyphen
splitting), and whose maximal runs all fit within the available width
(`break_long_words` otherwise splits tokens), every wrapped sub-line
carries the shared indent, and re-joining the indent-stripped sub-lines
with single spaces preserves the whitespace-delimited token sequence of
the trimmed line: wrapping drops the whitespace runs at wrap points
(replacing each by the joining space) and changes nothing else. -/
theorem wrap_tokens_preserved (width : Nat) (l : String)
    (hNonBlank : (pyStrip l).data ≠ [])
    (hChars : ∀ c ∈ l.data, (pyIsSpace c = true ↔ c = ' ') ∧ ¬ c = '-')
    (hFit : ∀ ch ∈ splitChunks (pyStrip l).data,
      (ch.length : Int) ≤ (width : Int) - (l.data.takeWhile pyIsSpace).length) :
    (∀ out ∈ wrap_lines [l] width,
      out.data.take (l.data.takeWhile pyIsSpace).length = l.data.takeWhile pyIsSpace) ∧
    wsTokens (spaceJoin ((wrap_lines [l] width).map
      (dropIndent (l.data.takeWhile pyIsSpace).length))).data =
      wsTokens (pyStrip l).data := by
  have hcl : ∀ c ∈ l.data, pyIsSpace c = isWordsepWs c := by
    intro c hc
    cases hw : isWordsepWs c with
    | true => rw [wordsepWs_pyIsSpace c hw]
    | false =>
      cases hp : pyIsSpace c with
      | false => rfl
      | true =>
        have hsp := (hChars c hc).1.mp hp
        subst hsp
        exact absurd hw (by decide)
  have hsub := pyStrip_subset l
  have hnt : ∀ c ∈ (pyStrip l).data, ¬ c = '\t' := by
    intro c hc hct
    subst hct
    have h2 := (hChars '\t' (hsub _ hc)).1.mp (by decide)
    exact absurd h2 (by decide)
  have hexp : expandTabsGo 0 (pyStrip l).data = (pyStrip l).data :=
    expandTabsGo_id (pyStrip l).data hnt 0
  have hclcs : ∀ ch ∈ splitChunks (pyStrip l).data, ∀ c ∈ ch,
      pyIsSpace c = isWordsepWs c := by
    intro ch hch c hc
    refine hcl c (hsub c ?_)
    have h2 : c ∈ (splitChunks (pyStrip l).data).flatten := List.mem_flatten.mpr ⟨ch, hch, hc⟩
    rwa [splitChunks_flatten] at h2
  obtain ⟨c0, r0, hc0⟩ : ∃ c0 r0, (pyStrip l).data = c0 :: r0 := by
    cases hd : (pyStrip l).data with
    | nil => exact absurd hd hNonBlank
    | cons a t => exact ⟨a, t, rfl⟩
  obtain ⟨ch0, tl0, hcs0, hch0⟩ := splitChunks_head c0 r0
  rw [← hc0] at hcs0
  have hc0ws : pyIsSpace c0 = false := pyStrip_head_not_space l c0 r0 hc0
  have hch0mem : ch0 ∈ splitChunks (pyStrip l).data := by
    rw [hcs0]
    exact List.mem_cons_self _ _
  have hch0w : chunkIsWs ch0 = false := by
    rw [chunkIsWs_head ch0 c0 hch0 (splitChunks_uniform _ ch0 hch0mem)]
    have hc0mem : c0 ∈ (pyStrip l).data := by
      rw [hc0]
      exact List.mem_cons_self _ _
    rw [← hcl c0 (hsub c0 hc0mem)]
    exact hc0ws
  have hhdcs : ∀ ch, (splitChunks (pyStrip l).data).head? = some ch →
      chunkIsWs ch = false := by
    intro ch hch
    rw [hcs0] at hch
    simp only [List.head?_cons, Option.some.injEq] at hch
    subst hch
    exact hch0w
  obtain ⟨bcs, hG1, hG2, hG3, hG4⟩ :=
    wrapChunksGo_spec width (l.data.takeWhile pyIsSpace)
      (((splitChunks (pyStrip l).data).map List.length).sum +
        (splitChunks (pyStrip l).data).length + 1)
      (splitChunks (pyStrip l).data) true
      (splitChunks_wf _) hFit hclcs (fun _ => hhdcs) (by omega)
  have hcsne : splitChunks (pyStrip l).data ≠ [] := by
    rw [hcs0]
    simp
  have hbcsne : bcs ≠ [] := hG4 rfl hcsne
  have htw : textwrapWrap width (l.data.takeWhile pyIsSpace) (l.data.takeWhile pyIsSpace)
      (pyStrip l) =
      (bcs.map (fun bc => (l.data.takeWhile pyIsSpace) ++ bc.flatten)).map String.mk := by
    simp only [textwrapWrap]
    rw [hexp, hG1]
  have hwsne : ((bcs.map (fun bc => (l.data.takeWhile pyIsSpace) ++ bc.flatten)).map
      String.mk) ≠ [] := by
    simp [hbcsne]
  have hwl : wrap_lines [l] width =
      (bcs.map (fun bc => (l.data.takeWhile pyIsSpace) ++ bc.flatten)).map String.mk := by
    simp only [wrap_lines, wrapLinesGo, List.append_nil]
    rw [show ((pyStrip l).data.isEmpty) = false from isEmpty_false_of_ne_nil _ hNonBlank]
    rw [if_neg Bool.false_ne_true]
    rw [htw]
    rw [isEmpty_false_of_ne_nil _ hwsne]
    rw [if_neg Bool.false_ne_true]
  constructor
  · intro out hout
    rw [hwl] at hout
    simp only [List.map_map, List.mem_map, Function.comp] at hout
    obtain ⟨bc, hbc, rfl⟩ := hout
    exact List.take_left _ _
  · have hmm : (((bcs.map (fun bc => (l.data.takeWhile pyIsSpace) ++ bc.flatten)).map
          String.mk).map (dropIndent (l.data.takeWhile pyIsSpace).length)) =
        bcs.map (fun bc => String.mk bc.flatten) := by
      rw [List.map_map, List.map_map]
      refine List.map_congr_left ?_
      intro bc _
      show dropIndent (l.data.takeWhile pyIsSpace).length
        (String.mk ((l.data.takeWhile pyIsSpace) ++ bc.flatten)) = String.mk bc.flatten
      rw [dropIndent]
      congr 1
      exact List.drop_left _ _
    rw [hwl, hmm]
    rw [tokens_of_joined bcs hG2]
    rw [hG3]
    rfl

/-- Witness for the amended C4 at the concrete line `aa bb` and width 4:
the line wraps into two sub-lines and the token sequence is preserved. -/
theorem wrap_tokens_preserved_witness :
    wsTokens (spaceJoin ((wrap_lines ["aa bb"] 4).map
      (dropIndent ("aa bb".data.takeWhile pyIsSpace).length))).data =
      wsTokens (pyStrip "aa bb").data :=
  (wrap_tokens_preserved 4 "aa bb" (by decide) (by decide) (by decide)).2
